import Mathlib

/-!
Verification development for the blog-backend article pipeline.

Text is modelled as `List Char`.  Python string helpers (`strip`, `split`,
`lower`, `casefold` restricted to ASCII case mapping) are embedded as
executable functions, and each service function under scrutiny
(`ensure_unique_slug`, `sanitize_faq`, `normalize_url`,
`enforce_single_hyperlink_per_url`, `compose_body_mdx`,
`extract_sections_from_body`, the polling loops and the queue runner)
is translated from the repository source.
-/

set_option autoImplicit false
set_option linter.unusedVariables false
set_option maxRecDepth 10000

namespace BlogBackend

/-! ### Basic character and string helpers -/
/-- ASCII whitespace recognised by Python `str.strip` / `str.split` / `\s`
(space, tab, newline, carriage return, vertical tab, form feed); the
embedding restricts Python's Unicode whitespace classes to ASCII. -/
def isSpaceChar (c : Char) : Bool :=
  c = ' ' || c = '\t' || c = '\n' || c = '\r' || c = Char.ofNat 11 || c = Char.ofNat 12

/-- Python `str.lstrip()` on ASCII whitespace. -/
def lstripWs (l : List Char) : List Char :=
  l.dropWhile isSpaceChar

/-- Python `str.strip()` on ASCII whitespace. -/
def pyStrip (l : List Char) : List Char :=
  ((lstripWs l).reverse.dropWhile isSpaceChar).reverse

/-- Per-character ASCII lowering, modelling Python `str.lower()` and the
ASCII fragment of `str.casefold()`. -/
def lowerStr (l : List Char) : List Char :=
  l.map Char.toLower

/-- The recursion of Python `str.split()`, structural on a fuel argument
so that it evaluates inside the kernel; `l.length` fuel always suffices. -/
def pyWordsGo : Nat → List Char → List (List Char)
  | 0, _ => []
  | fuel + 1, l =>
    match l with
    | [] => []
    | c :: rest =>
      if isSpaceChar c then pyWordsGo fuel rest
      else
        (c :: rest.takeWhile (fun d => ¬ isSpaceChar d)) ::
          pyWordsGo fuel (rest.dropWhile (fun d => ¬ isSpaceChar d))

/-- Python `str.split()` with no argument: whitespace-separated words,
empty words dropped. -/
def pyWords (l : List Char) : List (List Char) :=
  pyWordsGo l.length l

/-- Python `" ".join(parts)`. -/
def joinSpace : List (List Char) → List Char
  | [] => []
  | [w] => w
  | w :: rest => w ++ ' ' :: joinSpace rest

/-- `" ".join(value.split())`: whitespace normalisation used throughout
`article_publication.py` (`_normalize_text` and `sanitize_faq`). -/
def normWs (l : List Char) : List Char :=
  joinSpace (pyWords l)

/-! ### Decimal rendering of natural numbers (Python `str(int)` / f-string) -/
/-- A single decimal digit character. -/
def decDigit : Nat → Char
  | 0 => '0' | 1 => '1' | 2 => '2' | 3 => '3' | 4 => '4'
  | 5 => '5' | 6 => '6' | 7 => '7' | 8 => '8' | _ => '9'

/-- Numeric value of a decimal digit character (inverse of `decDigit`). -/
def digitVal (c : Char) : Nat :=
  c.toNat - 48

/-- The decimal-rendering recursion, structural on a fuel argument so that
it evaluates inside the kernel; any fuel above the number suffices. -/
def natDigitsGo : Nat → Nat → List Char
  | 0, _ => []
  | fuel + 1, n =>
    if n < 10 then [decDigit n]
    else natDigitsGo fuel (n / 10) ++ [decDigit (n % 10)]

/-- Decimal rendering of a natural number, most significant digit first,
as Python's `str(k)` produces inside `f"{base}-{index}"`. -/
def natDigits (n : Nat) : List Char :=
  natDigitsGo (n + 1) n

/-- Folding digits back to the numeric value. -/
def digitsVal (l : List Char) : Nat :=
  l.foldl (fun a c => 10 * a + digitVal c) 0

/-! ### `ensure_unique_slug` (src/app/services/__init__.py) -/
/-- The colliding-slug candidate `f"{base}-{index}"`. -/
def slugCandidate (base : List Char) (index : Nat) : List Char :=
  base ++ '-' :: natDigits index

/-- The `while candidate in existing` search loop of `ensure_unique_slug`,
made structurally recursive on a fuel argument; with fuel at least
`existing.length + 1` the loop is guaranteed to find a free candidate
(see `slugSearch_finds`). -/
def slugSearch (existing : List (List Char)) (base : List Char) :
    Nat → Nat → List Char
  | 0, index => slugCandidate base index
  | fuel + 1, index =>
    let candidate := slugCandidate base index
    if candidate ∈ existing then slugSearch existing base fuel (index + 1)
    else candidate

/-- `ensure_unique_slug(existing_slugs, desired_slug)`: return the desired
slug when free, otherwise append `-2`, `-3`, … until unique. -/
def ensure_unique_slug (existing : List (List Char)) (desired : List Char) :
    List Char :=
  if desired ∈ existing then slugSearch existing desired (existing.length + 1) 2
  else desired

/-! ### `sanitize_faq` (src/app/services/article_publication.py) -/
/-- A FAQ entry as handled by `sanitize_faq`; the Python code drops
non-`dict` items before reaching the fields, so the embedding's domain is
the entries carrying a `question` and an `answer` string. -/
structure FaqEntry where
  question : List Char
  answer : List Char
  deriving DecidableEq, Repr

/-- `" ".join(raw.split()).strip()` as applied to both FAQ fields. -/
def faqNorm (l : List Char) : List Char :=
  pyStrip (normWs l)

/-- The loop body of `sanitize_faq`, threading the `seen_questions` set of
casefolded question texts. -/
def sanitizeFaqGo : List FaqEntry → List (List Char) → List FaqEntry
  | [], _ => []
  | item :: rest, seen =>
    let question := faqNorm item.question
    let answer := faqNorm item.answer
    if question = [] ∨ answer = [] then sanitizeFaqGo rest seen
    else if lowerStr question ∈ seen then sanitizeFaqGo rest seen
    else ⟨question, answer⟩ :: sanitizeFaqGo rest (lowerStr question :: seen)

/-- `sanitize_faq(faq_items)`: drop entries with empty question or answer
after whitespace normalisation and deduplicate by casefolded question. -/
def sanitize_faq (items : List FaqEntry) : List FaqEntry :=
  sanitizeFaqGo items []

/-- Specification-level restatement of the dedupe rule: an entry is kept
exactly when it is valid and no EARLIER VALID entry has the same
casefolded question (the accumulator records every valid question seen,
kept or not). -/
def sanitizeFaqFirstOccSpec : List FaqEntry → List (List Char) → List FaqEntry
  | [], _ => []
  | item :: rest, prior =>
    let question := faqNorm item.question
    let answer := faqNorm item.answer
    if question = [] ∨ answer = [] then sanitizeFaqFirstOccSpec rest prior
    else if lowerStr question ∈ prior then
      sanitizeFaqFirstOccSpec rest (prior ++ [lowerStr question])
    else ⟨question, answer⟩ :: sanitizeFaqFirstOccSpec rest (prior ++ [lowerStr question])

/-! ### Queue runner (src/app/services/runner.py) -/
/-- Job status strings used by `GenJob`. -/
def statusPending : List Char := (r"pending").toList

def statusRunning : List Char := (r"running").toList

def statusDone : List Char := (r"done").toList

def statusSkipped : List Char := (r"skipped").toList

def statusFailed : List Char := (r"failed").toList

/-- The persisted queue-job row fields the runner touches. -/
structure GenJob where
  status : List Char
  error : Option (List Char)
  lastError : Option (List Char)
  articleId : Option Nat
  deriving DecidableEq, Repr

/-- `MIN_TRANSCRIPT_CHARS` (src/app/integrations/supadata.py, env default). -/
def MIN_TRANSCRIPT_CHARS : Nat := 200

/-- Outcome of `supadata.get_transcript` as observed by `_fetch_raw_text`:
either an exception or a transcript content string. -/
inductive TranscriptOutcome where
  | raises (msg : List Char)
  | content (text : List Char)
  deriving DecidableEq, Repr

/-- Outcome of `self._supadata_factory()` inside `_process_job`. -/
inductive FactoryOutcome where
  | raises (msg : List Char)
  | ok (transcript : TranscriptOutcome)
  deriving DecidableEq, Repr

/-- Outcome of `generate_article_from_raw` inside `_process_job`. -/
inductive GenOutcome where
  | ok (postId : Nat)
  | articleError (msg : List Char)
  | otherError (msg : List Char)
  deriving DecidableEq, Repr

/-- `_fetch_raw_text(supadata, url)`: swallow transcript exceptions, strip
the content, and treat anything below `MIN_TRANSCRIPT_CHARS` as missing. -/
def fetch_raw_text : TranscriptOutcome → Option (List Char)
  | .raises _ => none
  | .content raw =>
    if (pyStrip raw).length < MIN_TRANSCRIPT_CHARS then none
    else some (pyStrip raw)

/-- `_finalise_job(session, job, status=..., error=..., article_id=...)`. -/
def finalise_job (job : GenJob) (status : List Char) (error : Option (List Char))
    (articleId : Option Nat) : GenJob :=
  { job with
    status := status
    error := error
    lastError := error
    articleId := articleId }

/-- The fixed error message recorded when no usable transcript text exists. -/
def noTranscriptTextMsg : List Char := (r"no transcript text").toList

/-- The fixed error message recorded when the job row has no URL. -/
def missingUrlMsg : List Char := (r"missing url").toList

/-- `GenRunner._process_job` as a function of the job row and of the
outcomes of its effectful steps (URL presence, SupaData factory plus
transcript fetch, article generation). -/
def process_job (job : GenJob) (url : Option (List Char))
    (factory : FactoryOutcome) (gen : GenOutcome) : GenJob :=
  match url with
  | none =>
    { job with
      status := statusSkipped
      error := some missingUrlMsg
      lastError := some missingUrlMsg }
  | some _ =>
    match factory with
    | .raises msg => finalise_job job statusFailed (some (msg.take 500)) none
    | .ok transcript =>
      match fetch_raw_text transcript with
      | none => finalise_job job statusSkipped (some noTranscriptTextMsg) none
      | some _text =>
        match gen with
        | .ok postId => finalise_job job statusDone none (some postId)
        | .articleError msg => finalise_job job statusFailed (some (msg.take 500)) none
        | .otherError msg => finalise_job job statusFailed (some (msg.take 500)) none

/-- `GenRunner._next_pending`: the claim step selects the first job whose
status is `pending` (ordering by ascending id is the list order). -/
def next_pending (jobs : List GenJob) : Option GenJob :=
  jobs.find? (fun job => job.status = statusPending)

/-! ### Research boundary (`GeneratedArticleService._run_research`) -/
/-- A research source candidate (summary shape irrelevant to the claim). -/
structure ResearchSource where
  url : List Char
  deriving DecidableEq, Repr

/-- Outcome of constructing the deep-search client via the provider. -/
inductive ProviderOutcome where
  | deepSearchError (msg : List Char)
  | otherError (msg : List Char)
  | ok
  deriving DecidableEq, Repr

/-- Outcome of `client.search(title=..., lead=...)`. -/
inductive SearchOutcome where
  | deepSearchError (msg : List Char)
  | otherError (msg : List Char)
  | ok (summary : Option (List Char)) (sources : List ResearchSource)
  deriving DecidableEq, Repr

/-- `_normalize_research_result`: falsy summary becomes `None`, falsy
source list becomes `[]` (the `run_id` is not needed by the claim). -/
def normalize_research_result (summary : Option (List Char))
    (sources : List ResearchSource) : Option (List Char) × List ResearchSource :=
  (match summary with
   | some s => if s = [] then none else some s
   | none => none,
   sources)

/-- `GeneratedArticleService._run_research` as a function of the provider
and search outcomes: every failure is absorbed into `(None, [])`. -/
def run_research (provider : ProviderOutcome) (search : SearchOutcome) :
    Option (List Char) × List ResearchSource :=
  match provider with
  | .deepSearchError _ => (none, [])
  | .otherError _ => (none, [])
  | .ok =>
    match search with
    | .deepSearchError _ => (none, [])
    | .otherError _ => (none, [])
    | .ok summary sources => normalize_research_result summary sources

/-! ### Poll status classifiers (C5) -/
/-- What one poll response makes the loop do next. -/
inductive PollClass where
  | success
  | failure
  | keepPolling
  deriving DecidableEq, Repr

/-- `SupaDataClient._poll_transcript_job` status handling: lowercase the
status; `completed` returns the payload, `failed` raises, the in-progress
synonyms merely log; then any payload carrying `content` is an implicit
success; otherwise sleep and poll again. -/
def supadata_classify (status : Option (List Char)) (hasContent : Bool) : PollClass :=
  match status with
  | some s =>
    if s ≠ [] then
      if lowerStr s = (r"completed").toList then .success
      else if lowerStr s = (r"failed").toList then .failure
      else if hasContent then .success else .keepPolling
    else if hasContent then .success else .keepPolling
  | none => if hasContent then .success else .keepPolling

/-- `ParallelDeepSearchClient._poll_run` status handling: the lowered
status (empty when absent or falsy) is matched against the success and
failure synonym sets; anything else sleeps 1.0s and polls again. -/
def deep_classify (status : Option (List Char)) : PollClass :=
  match status with
  | some s =>
    if lowerStr s = (r"completed").toList ∨ lowerStr s = (r"succeeded").toList ∨
        lowerStr s = (r"success").toList ∨ lowerStr s = (r"finished").toList then
      .success
    else if lowerStr s = (r"failed").toList ∨ lowerStr s = (r"error").toList ∨
        lowerStr s = (r"cancelled").toList then .failure
    else .keepPolling
  | none => .keepPolling

/-- `OpenAIClient.run_assistant` run-status handling: the loop breaks on
the literal statuses `completed|failed|cancelled|expired` (case-sensitive)
and then raises unless the status is exactly `completed`. -/
def openai_classify (status : List Char) : PollClass :=
  if status = (r"completed").toList ∨ status = (r"failed").toList ∨
      status = (r"cancelled").toList ∨ status = (r"expired").toList then
    (if status = (r"completed").toList then .success else .failure)
  else .keepPolling

/-! ### Bounded polling loops (C4)
Wall-clock time is modelled as a rational number of seconds starting at 0
when the loop begins.  A run of the loop is driven by a stream of poll
responses, the `i`-th carrying the duration of the HTTP request and the
payload fields the loop inspects. -/
/-- One poll response: request duration plus the payload fields read. -/
structure SupaPollEvent where
  dur : ℚ
  status : Option (List Char)
  hasContent : Bool

/-- One recorded iteration: when the poll request started, how long it
took, and how long the loop then slept. -/
structure PollStep where
  start : ℚ
  dur : ℚ
  sleep : ℚ
  deriving DecidableEq, Repr

/-- Terminal outcome of a polling loop. -/
inductive PollOutcome where
  | success
  | failure
  | timeoutError
  | fuelOut
  deriving DecidableEq, Repr

/-- The `while True` loop of `SupaDataClient._poll_transcript_job`: check
the remaining budget, perform the request, classify the payload, and
otherwise sleep `min(poll_interval, max(0.0, remaining))`.  The fuel
argument only bounds the recursion; `supaPoll_timeout` shows it never runs
out when it is at least `10 * budget + 2`. -/
def supaPollGo (ev : Nat → SupaPollEvent) (budget intv : ℚ) :
    Nat → Nat → ℚ → List PollStep × PollOutcome
  | 0, _, _ => ([], .fuelOut)
  | fuel + 1, i, t =>
    let remaining := budget - t
    if remaining ≤ 0 then ([], .timeoutError)
    else
      let e := ev i
      match supadata_classify e.status e.hasContent with
      | .success => ([⟨t, e.dur, 0⟩], .success)
      | .failure => ([⟨t, e.dur, 0⟩], .failure)
      | .keepPolling =>
        let slp := min intv (max 0 remaining)
        let rest := supaPollGo ev budget intv fuel (i + 1) (t + e.dur + slp)
        (⟨t, e.dur, slp⟩ :: rest.1, rest.2)

/-- `_poll_transcript_job(job_id, url, poll_interval, poll_timeout)`:
`deadline = now + max(1.0, poll_timeout)` and
`poll_interval = max(0.1, poll_interval)`. -/
def supa_poll_transcript_job (ev : Nat → SupaPollEvent)
    (pollInterval pollTimeout : ℚ) (fuel : Nat) : List PollStep × PollOutcome :=
  supaPollGo ev (max 1 pollTimeout) (max (1/10) pollInterval) fuel 0 0

/-- One poll response of the deep-search run loop. -/
structure DeepPollEvent where
  dur : ℚ
  status : Option (List Char)

/-- The `while True` loop of `ParallelDeepSearchClient._poll_run`: raise
the timeout error once `elapsed >= timeout`, classify the status, and
otherwise `time.sleep(1.0)` — a fixed sleep, not clamped to the remaining
budget. -/
def deepPollGo (ev : Nat → DeepPollEvent) (budget : ℚ) :
    Nat → Nat → ℚ → List PollStep × PollOutcome
  | 0, _, _ => ([], .fuelOut)
  | fuel + 1, i, t =>
    if budget ≤ t then ([], .timeoutError)
    else
      let e := ev i
      match deep_classify e.status with
      | .success => ([⟨t, e.dur, 0⟩], .success)
      | .failure => ([⟨t, e.dur, 0⟩], .failure)
      | .keepPolling =>
        let rest := deepPollGo ev budget fuel (i + 1) (t + e.dur + 1)
        (⟨t, e.dur, 1⟩ :: rest.1, rest.2)

/-- `_poll_run(run_id, started_at)` with `self._timeout` as the budget. -/
def deep_poll_run (ev : Nat → DeepPollEvent) (budget : ℚ) (fuel : Nat) :
    List PollStep × PollOutcome :=
  deepPollGo ev budget fuel 0 0

/-! ### URL normalisation (src/app/services/source_links.py, `normalize_url`)
`urllib.parse.urlparse` / `urlunparse` are embedded for the URL shapes the
service handles; IPv6 bracket hosts (which make `urlparse` raise) are
outside the embedding's domain. -/
/-- The components of `urllib.parse.urlparse`. -/
structure UrlParts where
  scheme : List Char
  netloc : List Char
  path : List Char
  params : List Char
  query : List Char
  fragment : List Char
  deriving DecidableEq, Repr

/-- Characters allowed in a URL scheme (ASCII letters, digits, `+-.`). -/
def isSchemeChar (c : Char) : Bool :=
  c.isAlpha || c.isDigit || c = '+' || c = '-' || c = '.'

/-- The scheme step of `urlsplit`: the part before the first `:` when it
is a non-empty run of scheme characters starting with a letter, lowered. -/
def splitScheme (url : List Char) : List Char × List Char :=
  let pre := url.takeWhile (fun c => c ≠ ':')
  if pre.length < url.length ∧ pre ≠ [] ∧ (pre.headD 'a').isAlpha = true ∧
      pre.all isSchemeChar = true then
    (lowerStr pre, url.drop (pre.length + 1))
  else ([], url)

/-- `_splitnetloc`: the netloc runs to the first of `/`, `?` or `#`. -/
def isNetlocChar (c : Char) : Bool :=
  !(c = '/' || c = '?' || c = '#')

/-- Python `str.split(ch, 1)` when the separator occurs, else the whole
string with an empty second part. -/
def splitFirst (ch : Char) (l : List Char) : List Char × List Char :=
  let pre := l.takeWhile (fun c => c ≠ ch)
  if pre.length = l.length then (l, []) else (pre, l.drop (pre.length + 1))

/-- Index of the last occurrence of a character, Python `str.rfind`. -/
def rfindIdx (p : Char → Bool) (l : List Char) : Option Nat :=
  (l.reverse.findIdx? p).map (fun i => l.length - 1 - i)

/-- Index of the first occurrence at or after `start`, Python `str.find(c, start)`. -/
def findIdxFrom (p : Char → Bool) (l : List Char) (start : Nat) : Option Nat :=
  ((l.drop start).findIdx? p).map (fun i => start + i)

/-- `urllib.parse._splitparams`: split the params off the last path
segment (first `;` at or after the last `/`). -/
def splitParams (l : List Char) : List Char × List Char :=
  let idx :=
    if '/' ∈ l then
      match rfindIdx (fun c => c = '/') l with
      | some s => findIdxFrom (fun c => c = ';') l s
      | none => none
    else l.findIdx? (fun c => c = ';')
  match idx with
  | some i => (l.take i, l.drop (i + 1))
  | none => (l, [])

/-- `urllib.parse.urlparse` (minus IPv6 bracket hosts): remove the unsafe
bytes, split scheme, netloc behind `//`, fragment at the first `#`, query
at the first `?`, then params. -/
def pyUrlparse (url : List Char) : UrlParts :=
  let cleaned := url.filter (fun c => !(c = '\t' || c = '\r' || c = '\n'))
  let sp := splitScheme cleaned
  let afterScheme := sp.2
  let np :=
    if afterScheme.take 2 = ['/', '/'] then
      let body := afterScheme.drop 2
      (body.takeWhile isNetlocChar, body.dropWhile isNetlocChar)
    else ([], afterScheme)
  let ff := splitFirst '#' np.2
  let qq := splitFirst '?' ff.1
  let pp := splitParams qq.1
  ⟨sp.1, np.1, pp.1, pp.2, qq.2, ff.2⟩

/-- `ParseResult.hostname` (minus bracket hosts): the part of the netloc
after the last `@` and before the first `:`, lowered; empty maps to `""`. -/
def hostnameOf (netloc : List Char) : List Char :=
  let hostinfo :=
    match rfindIdx (fun c => c = '@') netloc with
    | some i => netloc.drop (i + 1)
    | none => netloc
  lowerStr (hostinfo.takeWhile (fun c => c ≠ ':'))

/-- `urllib.parse.urlunparse`/`urlunsplit`. -/
def pyUrlunparse (p : UrlParts) : List Char :=
  let url0 := if p.params ≠ [] then p.path ++ ';' :: p.params else p.path
  let url1 :=
    if p.netloc ≠ [] ∨ url0.take 2 = ['/', '/'] then
      '/' :: '/' :: p.netloc ++
        (if url0 ≠ [] ∧ url0.headD ' ' ≠ '/' then '/' :: url0 else url0)
    else url0
  let url2 := if p.scheme ≠ [] then p.scheme ++ ':' :: url1 else url1
  let url3 := if p.query ≠ [] then url2 ++ '?' :: p.query else url2
  if p.fragment ≠ [] then url3 ++ '#' :: p.fragment else url3

/-- Python `path.rstrip("/")`. -/
def rstripSlashes (l : List Char) : List Char :=
  (l.reverse.dropWhile (fun c => c = '/')).reverse

/-- `normalize_url(url)`: trim, parse; without scheme or netloc return the
trimmed input; else lowercase the hostname (dropping userinfo and port),
drop the fragment, strip trailing slashes off a non-root path and
reassemble. -/
def normalize_url (url : List Char) : List Char :=
  if url = [] then []
  else
    let trimmed := pyStrip url
    if trimmed = [] then []
    else
      let p := pyUrlparse trimmed
      if p.scheme = [] ∨ p.netloc = [] then trimmed
      else
        let hostname := hostnameOf p.netloc
        let path := if p.path = [] then ['/'] else p.path
        let normalizedPath := if path = ['/'] then path else rstripSlashes path
        let finalPath := if normalizedPath = [] then ['/'] else normalizedPath
        pyUrlunparse ⟨p.scheme, hostname, finalPath, p.params, p.query, []⟩

/-! ### The combined link pattern of source_links.py
`\[([^\]]+)\]\((https?://[^\s)]+)\)|(https?://[^\s<>\]]+)` with
`re.IGNORECASE`, scanned left to right by `finditer`.  Because none of the
character classes admit the character that closes them, the regex is
backtracking-free and is embedded as a deterministic scanner. -/
/-- Case-insensitive literal match (pattern given lowercase); returns the
matched original characters and the remainder. -/
def stripPrefixCI : List Char → List Char → Option (List Char × List Char)
  | [], l => some ([], l)
  | _ :: _, [] => none
  | p :: ps, c :: cs =>
    if c.toLower = p then
      match stripPrefixCI ps cs with
      | some (m, r) => some (c :: m, r)
      | none => none
    else none

/-- `https?://` with the greedy optional `s`. -/
def matchHttpScheme (l : List Char) : Option (List Char × List Char) :=
  match stripPrefixCI ['h', 't', 't', 'p'] l with
  | none => none
  | some (m1, r1) =>
    match r1 with
    | [] => none
    | c :: r2 =>
      if c.toLower = 's' then
        match stripPrefixCI [':', '/', '/'] r2 with
        | some (m2, r3) => some (m1 ++ c :: m2, r3)
        | none =>
          match stripPrefixCI [':', '/', '/'] r1 with
          | some (m2, r3) => some (m1 ++ m2, r3)
          | none => none
      else
        match stripPrefixCI [':', '/', '/'] r1 with
        | some (m2, r3) => some (m1 ++ m2, r3)
        | none => none

/-- `[^\s<>\]]` of the bare-URL alternative. -/
def isBareUrlChar (c : Char) : Bool :=
  !(isSpaceChar c) && !(c = '<') && !(c = '>') && !(c = ']')

/-- `[^\s)]` of the markdown-URL group. -/
def isMdUrlChar (c : Char) : Bool :=
  !(isSpaceChar c) && !(c = ')')

/-- The bare alternative `(https?://[^\s<>\]]+)` anchored at the head:
returns the URL (which is the whole match) and the remainder. -/
def tryBare (l : List Char) : Option (List Char × List Char) :=
  match matchHttpScheme l with
  | none => none
  | some (sch, r) =>
    let run := r.takeWhile isBareUrlChar
    if run = [] then none
    else some (sch ++ run, r.dropWhile isBareUrlChar)

/-- The markdown alternative `\[([^\]]+)\]\((https?://[^\s)]+)\)` anchored
at the head: returns label, URL, the whole match and the remainder. -/
def tryMarkdown (l : List Char) :
    Option (List Char × List Char × List Char × List Char) :=
  match l with
  | '[' :: r =>
    if r.takeWhile (fun c => c ≠ ']') = [] then none
    else
      match r.dropWhile (fun c => c ≠ ']') with
      | ']' :: '(' :: r2 =>
        match matchHttpScheme r2 with
        | none => none
        | some (sch, r3) =>
          if r3.takeWhile isMdUrlChar = [] then none
          else
            match r3.dropWhile isMdUrlChar with
            | ')' :: rest =>
              some (r.takeWhile (fun c => c ≠ ']'),
                sch ++ r3.takeWhile isMdUrlChar,
                '[' :: (r.takeWhile (fun c => c ≠ ']') ++ ']' :: '(' ::
                  (sch ++ r3.takeWhile isMdUrlChar ++ [')'])), rest)
            | _ => none
      | _ => none
  | _ => none

/-! ### `finditer` over the combined pattern, and
`enforce_single_hyperlink_per_url` -/
/-- One piece of the scanned text: a character outside any match, or one
match carrying its optional label (markdown only), URL and full match
text. -/
inductive Seg where
  | chr (c : Char)
  | link (label : Option (List Char)) (url : List Char) (whole : List Char)
  deriving DecidableEq, Repr

/-- Left-to-right scan of `_COMBINED_PATTERN.finditer`, structural on a
fuel argument so that it evaluates inside the kernel (`l.length` fuel
always suffices): at each position try the markdown alternative, then the
bare alternative, else advance one character; scanning resumes after each
match. -/
def scanSegsGo : Nat → List Char → List Seg
  | 0, _ => []
  | fuel + 1, l =>
    match tryMarkdown l with
    | some (lab, url, whole, r) => .link (some lab) url whole :: scanSegsGo fuel r
    | none =>
      match tryBare l with
      | some (url, r) => .link none url url :: scanSegsGo fuel r
      | none =>
        match l with
        | [] => []
        | c :: rest => .chr c :: scanSegsGo fuel rest

/-- The match/gap decomposition of `_COMBINED_PATTERN.finditer(text)`. -/
def scanSegs (l : List Char) : List Seg :=
  scanSegsGo l.length l

/-- `_strip_scheme(url)`: `re.sub` of the anchored `https?://`, ignoring
case. -/
def strip_scheme (url : List Char) : List Char :=
  match matchHttpScheme url with
  | some pr => pr.2
  | none => url

/-- The plain-text replacement of a repeated link: the label of a markdown
link, the scheme-stripped URL of a bare one. -/
def plainTextOf (label : Option (List Char)) (url : List Char) : List Char :=
  match label with
  | some lab => lab
  | none => strip_scheme url

/-- The rewrite loop of `enforce_single_hyperlink_per_url`, processing the
scanned pieces in order while threading the `seen_normalized` set. -/
def enforceGo : List Seg → List (List Char) → List Char × List (List Char)
  | [], seen => ([], seen)
  | .chr c :: rest, seen =>
    let result := enforceGo rest seen
    (c :: result.1, result.2)
  | .link label url whole :: rest, seen =>
    let normalized := normalize_url url
    if normalized ≠ [] ∧ normalized ∈ seen then
      let result := enforceGo rest seen
      (plainTextOf label url ++ result.1, result.2)
    else if normalized ≠ [] then
      let result := enforceGo rest (normalized :: seen)
      (whole ++ result.1, result.2)
    else
      let result := enforceGo rest seen
      (whole ++ result.1, result.2)

/-- `enforce_single_hyperlink_per_url(text, seen)`: rewrite the text so
that each normalized URL carries link markup at most once, returning the
rewritten text and the updated seen set. -/
def enforce_single_hyperlink_per_url (text : List Char)
    (seen : List (List Char)) : List Char × List (List Char) :=
  enforceGo (scanSegs text) seen

/-- Specification-level rewrite (the spec's words): the first occurrence
of a normalized URL in body order keeps its hyperlink markup, every later
occurrence of the same normalized URL is replaced by its plain text.  The
accumulator lists the normalized URLs of the seen set and of all earlier
matches. -/
def firstOccRewrite : List Seg → List (List Char) → List Char
  | [], _ => []
  | .chr c :: rest, acc => c :: firstOccRewrite rest acc
  | .link label url whole :: rest, acc =>
    (if normalize_url url ∈ acc then plainTextOf label url else whole) ++
      firstOccRewrite rest (acc ++ [normalize_url url])

/-! ### Section-level pipeline of `prepare_document_for_publication`
(src/app/services/article_publication.py) -/
/-- An article section (title and body). -/
structure ArticleSection where
  title : List Char
  body : List Char
  deriving DecidableEq, Repr

/-- `_rewrite_sections_with_single_links`: rewrite every section body with
`enforce_single_hyperlink_per_url`, threading the seen set across the
sections in order. -/
def rewriteSectionsGo : List ArticleSection → List (List Char) → List ArticleSection
  | [], _ => []
  | s :: rest, seen =>
    let result := enforce_single_hyperlink_per_url s.body seen
    ⟨s.title, result.1⟩ :: rewriteSectionsGo rest result.2

/-- The sanitized sections produced by `_rewrite_sections_with_single_links`
(the collected body URLs are not needed by the claims). -/
def rewrite_sections_with_single_links (sections : List ArticleSection) :
    List ArticleSection :=
  rewriteSectionsGo sections []

/-- `SOURCE_SECTION_TITLES` membership test: stripped, casefolded title. -/
def isSourceTitle (t : List Char) : Bool :=
  lowerStr (pyStrip t) = (r"źródła").toList || lowerStr (pyStrip t) = (r"zrodla").toList

/-- The loop of `_dedupe_sources_sections`: drop a sources section when
one is already kept. -/
def dedupeSourcesGo : List ArticleSection → List ArticleSection → Bool →
    List ArticleSection × Bool
  | [], kept, removed => (kept, removed)
  | s :: rest, kept, removed =>
    if isSourceTitle s.title ∧ kept.any (fun k => isSourceTitle k.title) then
      dedupeSourcesGo rest kept true
    else dedupeSourcesGo rest (kept ++ [s]) removed

/-- The default sources-section title. -/
def sourcesTitle : List Char := (r"Źródła").toList

/-- `_upsert_recommendations_section`: dedupe sources sections, then
replace the body of the first sources-titled section with the
recommendations content, or append a new `Źródła` section. -/
def upsert_recommendations_section (sections : List ArticleSection)
    (content : List Char) : List ArticleSection :=
  let cleaned := (dedupeSourcesGo sections [] false).1
  match cleaned.findIdx? (fun s => isSourceTitle s.title) with
  | some idx =>
    let kept := (cleaned.getD idx ⟨[], []⟩).title
    cleaned.set idx ⟨if kept = [] then sourcesTitle else kept, content⟩
  | none => cleaned ++ [⟨sourcesTitle, content⟩]

/-- The context-section title moved before the FAQ. -/
def contextTitle : List Char := (r"Kontekst i źródła (dla ciekawych)").toList

/-- `_ensure_context_section_before_faq` restricted to its effect on the
section list (`faqEmpty` reflects `not document.aeo.faq`). -/
def ensureContextBeforeFaq (sections : List ArticleSection) (faqEmpty : Bool) :
    List ArticleSection :=
  if faqEmpty then sections
  else
    match sections.findIdx? (fun s => s.title = contextTitle) with
    | none => sections
    | some idx =>
      if idx = sections.length - 1 then sections
      else sections.eraseIdx idx ++ [sections.getD idx ⟨[], []⟩]

/-- The `while len(content) < 420` padding loop of
`format_recommendations_section`; the suffix is non-empty so 420 rounds of
fuel always reach the floor. -/
def padTo420 : Nat → List Char → List Char → List Char
  | 0, content, _ => content
  | fuel + 1, content, suffixText =>
    if content.length < 420 then padTo420 fuel (content ++ suffixText) suffixText
    else content

/-- A recommendation item as rendered by `format_recommendations_section`. -/
structure RecItem where
  title : List Char
  url : List Char
  preview : List Char
  deriving DecidableEq, Repr

/-- `"\n".join(lines)`. -/
def joinNl : List (List Char) → List Char
  | [] => []
  | [w] => w
  | w :: rest => w ++ '\n' :: joinNl rest

/-- `format_recommendations_section(recommendations)`. -/
def format_recommendations_section (recs : List RecItem) : List Char :=
  if recs = [] then
    let base := (r"Przeczytaj również:").toList ++ '\n' :: '\n' ::
      (r"- Więcej artykułów znajdziesz w naszej bibliotece joga.yoga, pełnej praktycznych inspiracji.").toList
    padTo420 420 base ('\n' :: '\n' ::
      (r"Pozostań z nami — te rekomendacje rozwijają wątki z artykułu.").toList)
  else
    let lines := [(r"Przeczytaj również:").toList, []] ++
      (recs.map (fun item =>
        [('-' :: ' ' :: '[' :: item.title) ++ ']' :: '(' :: item.url ++ [')']] ++
          (if item.preview ≠ [] then [' ' :: ' ' :: item.preview] else []))).flatten
    padTo420 420 (pyStrip (joinNl lines)) ('\n' :: '\n' ::
      (r"Pozostań z nami — te rekomendacje rozwijają wątki z artykułu i prowadzą do kolejnych historii.").toList)

/-- The effect of `prepare_document_for_publication` on
`article.sections`: reorder the context section, rewrite duplicate
hyperlinks (`apply_sources_presentation`), then upsert the
recommendations section; title trimming, slug, canonical and FAQ
sanitisation do not touch section bodies, and
`_validate_or_construct_document` falls back to `model_construct`, which
performs no validation. -/
def prepareSectionsPipeline (sections : List ArticleSection) (faqEmpty : Bool)
    (recContent : List Char) : List ArticleSection :=
  upsert_recommendations_section
    (rewrite_sections_with_single_links (ensureContextBeforeFaq sections faqEmpty))
    recContent

/-! ### MDX body compose/extract (src/app/services/article_utils.py) -/
/-- `"\n\n".join(parts)`. -/
def joinNl2 : List (List Char) → List Char
  | [] => []
  | [w] => w
  | w :: rest => w ++ '\n' :: '\n' :: joinNl2 rest

/-- `compose_body_mdx(sections)`: `"\n\n".join(f"## {title}\n\n{body}")`
over the sections whose stripped title and body are non-empty. -/
def compose_body_mdx (sections : List ArticleSection) : List Char :=
  joinNl2 (sections.filterMap (fun s =>
    let title := pyStrip s.title
    let body := pyStrip s.body
    if title = [] ∨ body = [] then none
    else some (('#' :: '#' :: ' ' :: title) ++ '\n' :: '\n' :: body)))

/-- Split on newlines, Python line model of `re.MULTILINE` anchors. -/
def splitLines : List Char → List (List Char)
  | [] => [[]]
  | c :: rest =>
    if c = '\n' then [] :: splitLines rest
    else
      match splitLines rest with
      | [] => [[c]]
      | line :: lines => (c :: line) :: lines

/-- A line matching `^## +(.+)$` yields its `group(1).strip()`: the line
starts with `##`, a space follows, and at least two characters follow the
`##` (one consumed by ` +`, at least one by `.+`). -/
def headerTitleOf : List Char → Option (List Char)
  | '#' :: '#' :: ' ' :: c :: cs => some (pyStrip (' ' :: c :: cs))
  | _ => none

/-- Group the lines after a header match: collect the content lines up to
the next header, emit the section when both the title and the stripped
content are non-empty, and continue. -/
def extractGo : List (List Char) → List Char → List (List Char) →
    List ArticleSection
  | [], title, acc =>
    if title ≠ [] ∧ pyStrip (joinNl acc) ≠ [] then [⟨title, pyStrip (joinNl acc)⟩]
    else []
  | line :: rest, title, acc =>
    match headerTitleOf line with
    | some title2 =>
      (if title ≠ [] ∧ pyStrip (joinNl acc) ≠ [] then [⟨title, pyStrip (joinNl acc)⟩]
       else []) ++ extractGo rest title2 []
    | none => extractGo rest title (acc ++ [line])

/-- Skip the text before the first header (it belongs to no match). -/
def extractLines : List (List Char) → List ArticleSection
  | [] => []
  | line :: rest =>
    match headerTitleOf line with
    | some title => extractGo rest title []
    | none => extractLines rest

/-- `extract_sections_from_body(body)`. -/
def extract_sections_from_body (body : List Char) : List ArticleSection :=
  if body = [] then [] else extractLines (splitLines body)

/-! ### Substring test (for inspecting recorded error messages) -/
/-- Does `l` start with `pat`? -/
def startsWithChars : List Char → List Char → Bool
  | [], _ => true
  | _ :: _, [] => false
  | p :: ps, c :: cs => p = c && startsWithChars ps cs

/-- Does `pat` occur as a contiguous substring of `l`? -/
def hasSub (pat : List Char) : List Char → Bool
  | [] => startsWithChars pat []
  | l@(_ :: rest) => startsWithChars pat l || hasSub pat rest

/-! ### Concrete inputs used by witnesses and counterexamples -/
/-- Two FAQ entries whose questions differ only in case. -/
def exFaqItems : List FaqEntry :=
  [⟨(r"Jak ćwiczyć?").toList, (r"Regularnie.").toList⟩,
   ⟨(r"jak ćwiczyć?").toList, (r"Inaczej.").toList⟩,
   ⟨(r"   ").toList, (r"Bez pytania.").toList⟩]

/-- Existing slugs for the C2 witness. -/
def exSlugs : List (List Char) :=
  [(r"joga").toList, (r"joga-2").toList]

/-- The markdown link duplicated inside the C1 counterexample body. -/
def c1Link : List Char := (r"[a](http://x.co)").toList

/-- First section body: exactly 400 characters, the same normalized URL
linked twice. -/
def c1Body1 : List Char := List.replicate 368 'x' ++ c1Link ++ c1Link

/-- Filler body of exactly 400 characters. -/
def c1Filler : List Char := List.replicate 400 'y'

/-- A document's sections, all meeting the 400-character schema floor. -/
def c1Sections : List ArticleSection :=
  [⟨(r"Sekcja pierwsza").toList, c1Body1⟩,
   ⟨(r"Sekcja druga").toList, c1Filler⟩,
   ⟨(r"Sekcja trzecia").toList, c1Filler⟩,
   ⟨(r"Sekcja czwarta").toList, c1Filler⟩]

/-- Deep-search poll responses that never reach a terminal status. -/
def c4DeepEvents : Nat → DeepPollEvent := fun _ => ⟨0, some ((r"running").toList)⟩

/-- Transcript poll responses that never reach a terminal status. -/
def c4SupaEvents : Nat → SupaPollEvent := fun _ => ⟨0, none, false⟩

/-- A queue job freshly claimed by the runner. -/
def exRunningJob : GenJob := ⟨statusRunning, none, none, none⟩

/-- A transcript of 50 characters against the 200-character minimum. -/
def c7Transcript : List Char := List.replicate 50 'a'

/-- A transcript comfortably above the minimum. -/
def exLongTranscript : List Char := List.replicate 250 'a'

/-- A job list with one terminal and one pending job. -/
def exJobs : List GenJob :=
  [⟨statusDone, none, none, some 1⟩, ⟨statusPending, none, none, none⟩]

/-- A well-formed section for the MDX round trip: non-empty stripped title
and body, no newline in the title and no `^## +(.+)$` header line in the
STRIPPED body. -/
def sectionOk (s : ArticleSection) : Prop :=
  pyStrip s.title ≠ [] ∧ (∀ c ∈ s.title, c ≠ '\n') ∧ pyStrip s.body ≠ [] ∧
    ∀ line ∈ splitLines (pyStrip s.body), headerTitleOf line = none

instance (s : ArticleSection) : Decidable (sectionOk s) :=
  inferInstanceAs (Decidable (pyStrip s.title ≠ [] ∧ (∀ c ∈ s.title, c ≠ '\n') ∧
    pyStrip s.body ≠ [] ∧
    ∀ line ∈ splitLines (pyStrip s.body), headerTitleOf line = none))

/-- Stripping both fields (the claim's round-trip image). -/
def stripSection (s : ArticleSection) : ArticleSection :=
  ⟨pyStrip s.title, pyStrip s.body⟩

/-- Counterexample input for the round-trip claim: a body whose RAW lines
never start with the header pattern, but whose STRIPPED body does. -/
def c10Section : ArticleSection :=
  ⟨(r"T").toList, ' ' :: ' ' :: ' ' :: '#' :: '#' :: ' ' :: 'x' :: '\n' :: 'y' :: []⟩

/-! ### C9: URL component assembly and what normalize_url guarantees
(src/app/services/source_links.py, `normalize_url`) -/
/-- Host characters that cannot interfere with parsing: no `/?#`, no `:`
or `@`, no whitespace. -/
def hostCh (c : Char) : Bool :=
  isNetlocChar c && !(c = ':') && !(c = '@') && !isSpaceChar c

/-- Path characters: no query/fragment/params separator, no whitespace. -/
def pathCh (c : Char) : Bool :=
  !(c = '?') && !(c = '#') && !(c = ';') && !isSpaceChar c

/-- Query characters: no fragment separator, no whitespace. -/
def queryCh (c : Char) : Bool :=
  !(c = '#') && !isSpaceChar c

/-- Fragment characters: no whitespace. -/
def fragCh (c : Char) : Bool :=
  !isSpaceChar c

/-- Assemble `scheme://host` followed by path, `?query` and `#fragment`. -/
def mkUrl (scheme host path query frag : List Char) : List Char :=
  scheme ++ ':' :: '/' :: '/' :: (host ++ path ++
    (if query = [] then [] else '?' :: query) ++
    (if frag = [] then [] else '#' :: frag))

/-- The path normalisation performed by `normalize_url`: empty and root
paths become `/`, otherwise trailing slashes are stripped with a final
fallback to `/`. -/
def normPathOf (path : List Char) : List Char :=
  if path = [] then ['/']
  else if path = ['/'] then ['/']
  else if rstripSlashes path = [] then ['/']
  else rstripSlashes path

theorem digitVal_decDigit {d : Nat} (h : d < 10) : digitVal (decDigit d) = d := by
  interval_cases d <;> decide

theorem digitsVal_append_digit (l : List Char) (c : Char) :
    digitsVal (l ++ [c]) = 10 * digitsVal l + digitVal c := by
  simp [digitsVal, List.foldl_append]

theorem digitsVal_natDigitsGo :
    ∀ (n fuel : Nat), n < fuel → digitsVal (natDigitsGo fuel n) = n := by
  intro n
  induction n using Nat.strong_induction_on with
  | _ n ih =>
    intro fuel hfuel
    cases fuel with
    | zero => omega
    | succ fuel =>
      by_cases h : n < 10
      · rw [natDigitsGo, if_pos h]
        simp [digitsVal, digitVal_decDigit h]
      · rw [natDigitsGo, if_neg h]
        have h10 : 10 ≤ n := Nat.le_of_not_lt h
        have hlt : n / 10 < n := Nat.div_lt_self (by omega) (by omega)
        rw [digitsVal_append_digit, ih (n / 10) hlt fuel (by omega),
          digitVal_decDigit (Nat.mod_lt n (by omega))]
        omega

theorem digitsVal_natDigits (n : Nat) : digitsVal (natDigits n) = n :=
  digitsVal_natDigitsGo n (n + 1) (by omega)

theorem natDigits_injective : Function.Injective natDigits := by
  intro a b h
  have := digitsVal_natDigits a
  rw [h, digitsVal_natDigits] at this
  omega

theorem slugCandidate_injective (base : List Char) :
    Function.Injective (slugCandidate base) := by
  intro a b h
  apply natDigits_injective
  have h2 : '-' :: natDigits a = '-' :: natDigits b :=
    List.append_cancel_left h
  exact List.cons.inj h2 |>.2

/-- If some candidate with offset below the fuel is free, the search loop
returns the first free candidate at or after the start index. -/
theorem slugSearch_finds (existing : List (List Char)) (base : List Char) :
    ∀ (fuel start : Nat), (∃ j, j < fuel ∧ slugCandidate base (start + j) ∉ existing) →
      ∃ j, slugSearch existing base fuel start = slugCandidate base (start + j) ∧
        slugCandidate base (start + j) ∉ existing ∧
        ∀ i, i < j → slugCandidate base (start + i) ∈ existing := by
  intro fuel
  induction fuel with
  | zero =>
    intro start h
    obtain ⟨j, hj, _⟩ := h
    omega
  | succ fuel ih =>
    intro start h
    by_cases hc : slugCandidate base start ∈ existing
    · obtain ⟨j, hj, hfree⟩ := h
      have hj0 : j ≠ 0 := by
        intro h0; rw [h0] at hfree; simp at hfree; exact hfree hc
      have hnext : ∃ j, j < fuel ∧ slugCandidate base (start + 1 + j) ∉ existing := by
        refine ⟨j - 1, by omega, ?_⟩
        have : start + 1 + (j - 1) = start + j := by omega
        rw [this]; exact hfree
      obtain ⟨j', heq, hfree', hmin⟩ := ih (start + 1) hnext
      refine ⟨j' + 1, ?_, ?_, ?_⟩
      · rw [slugSearch, if_pos hc]
        have : start + (j' + 1) = start + 1 + j' := by omega
        rw [this]; exact heq
      · have : start + (j' + 1) = start + 1 + j' := by omega
        rw [this]; exact hfree'
      · intro i hi
        cases i with
        | zero => simpa using hc
        | succ i =>
          have : start + (i + 1) = start + 1 + i := by omega
          rw [this]; exact hmin i (by omega)
    · refine ⟨0, ?_, by simpa using hc, by omega⟩
      rw [slugSearch, if_neg hc]
      simp

/-- Pigeonhole: among `existing.length + 1` distinct candidates one is free. -/
theorem slugCandidate_exists_free (existing : List (List Char)) (base : List Char) :
    ∃ j, j < existing.length + 1 ∧ slugCandidate base (2 + j) ∉ existing := by
  by_contra h
  push_neg at h
  classical
  have hsub : (Finset.range (existing.length + 1)).image
      (fun j => slugCandidate base (2 + j)) ⊆ existing.toFinset := by
    intro s hs
    simp only [Finset.mem_image, Finset.mem_range] at hs
    obtain ⟨j, hj, rfl⟩ := hs
    simpa using h j hj
  have hcard : (Finset.range (existing.length + 1)).card ≤ existing.toFinset.card := by
    calc (Finset.range (existing.length + 1)).card
        = ((Finset.range (existing.length + 1)).image
            (fun j => slugCandidate base (2 + j))).card := by
          rw [Finset.card_image_of_injective]
          intro a b hab
          have := slugCandidate_injective base hab
          omega
      _ ≤ existing.toFinset.card := Finset.card_le_card hsub
  have : existing.toFinset.card ≤ existing.length := existing.toFinset_card_le
  simp only [Finset.card_range] at hcard
  omega

/-- C2 core facts about `ensure_unique_slug`. -/
theorem ensure_unique_slug_not_mem (existing : List (List Char)) (desired : List Char) :
    ensure_unique_slug existing desired ∉ existing := by
  rw [ensure_unique_slug]
  by_cases hmem : desired ∈ existing
  · rw [if_pos hmem]
    obtain ⟨j, hj, hfree⟩ := slugCandidate_exists_free existing desired
    obtain ⟨j', heq, hfree', _⟩ :=
      slugSearch_finds existing desired (existing.length + 1) 2 ⟨j, hj, hfree⟩
    rw [heq]; exact hfree'
  · rw [if_neg hmem]; exact hmem

theorem ensure_unique_slug_of_mem (existing : List (List Char)) (desired : List Char)
    (hmem : desired ∈ existing) :
    ∃ k, 2 ≤ k ∧ ensure_unique_slug existing desired = slugCandidate desired k ∧
      slugCandidate desired k ∉ existing ∧
      ∀ i, 2 ≤ i → i < k → slugCandidate desired i ∈ existing := by
  rw [ensure_unique_slug, if_pos hmem]
  obtain ⟨j, hj, hfree⟩ := slugCandidate_exists_free existing desired
  obtain ⟨j', heq, hfree', hmin⟩ :=
    slugSearch_finds existing desired (existing.length + 1) 2 ⟨j, hj, hfree⟩
  refine ⟨2 + j', by omega, heq, hfree', ?_⟩
  intro i h2 hik
  have : i = 2 + (i - 2) := by omega
  rw [this]
  exact hmin (i - 2) (by omega)

theorem sanitizeFaqGo_eq_spec :
    ∀ (items : List FaqEntry) (seen prior : List (List Char)),
      (∀ u, u ∈ seen ↔ u ∈ prior) →
      sanitizeFaqGo items seen = sanitizeFaqFirstOccSpec items prior := by
  intro items
  induction items with
  | nil => intro seen prior h; rfl
  | cons item rest ih =>
    intro seen prior h
    rw [sanitizeFaqGo, sanitizeFaqFirstOccSpec]
    by_cases hv : faqNorm item.question = [] ∨ faqNorm item.answer = []
    · rw [if_pos hv, if_pos hv]
      exact ih seen prior h
    · rw [if_neg hv, if_neg hv]
      by_cases hs : lowerStr (faqNorm item.question) ∈ seen
      · rw [if_pos hs, if_pos ((h _).mp hs)]
        apply ih
        intro u
        rw [h u]
        constructor
        · intro hu; exact List.mem_append_left _ hu
        · intro hu
          rcases List.mem_append.mp hu with h1 | h1
          · exact h1
          · simp only [List.mem_singleton] at h1
            subst h1
            exact (h _).mp hs
      · rw [if_neg hs, if_neg (fun hp => hs ((h _).mpr hp))]
        congr 1
        apply ih
        intro u
        simp only [List.mem_cons, List.mem_append, List.mem_singleton, h u]
        tauto

theorem sanitizeFaqGo_entries_valid :
    ∀ (items : List FaqEntry) (seen : List (List Char)) (e : FaqEntry),
      e ∈ sanitizeFaqGo items seen →
      e.question ≠ [] ∧ e.answer ≠ [] ∧
      ∃ raw, raw ∈ items ∧ e.question = faqNorm raw.question ∧
        e.answer = faqNorm raw.answer := by
  intro items
  induction items with
  | nil => intro seen e h; simp [sanitizeFaqGo] at h
  | cons item rest ih =>
    intro seen e h
    rw [sanitizeFaqGo] at h
    by_cases hv : faqNorm item.question = [] ∨ faqNorm item.answer = []
    · rw [if_pos hv] at h
      obtain ⟨h1, h2, raw, hraw, h3⟩ := ih seen e h
      exact ⟨h1, h2, raw, List.mem_cons_of_mem _ hraw, h3⟩
    · rw [if_neg hv] at h
      push_neg at hv
      by_cases hs : lowerStr (faqNorm item.question) ∈ seen
      · rw [if_pos hs] at h
        obtain ⟨h1, h2, raw, hraw, h3⟩ := ih seen e h
        exact ⟨h1, h2, raw, List.mem_cons_of_mem _ hraw, h3⟩
      · rw [if_neg hs] at h
        rcases List.mem_cons.mp h with rfl | h2
        · exact ⟨hv.1, hv.2, item, List.mem_cons_self _ _, rfl, rfl⟩
        · obtain ⟨h1, h2, raw, hraw, h3⟩ := ih _ e h2
          exact ⟨h1, h2, raw, List.mem_cons_of_mem _ hraw, h3⟩

theorem sanitizeFaqGo_nodup_lower :
    ∀ (items : List FaqEntry) (seen : List (List Char)),
      ((sanitizeFaqGo items seen).map (fun e => lowerStr e.question)).Nodup ∧
      ∀ e ∈ sanitizeFaqGo items seen, lowerStr e.question ∉ seen := by
  intro items
  induction items with
  | nil => intro seen; simp [sanitizeFaqGo]
  | cons item rest ih =>
    intro seen
    rw [sanitizeFaqGo]
    by_cases hv : faqNorm item.question = [] ∨ faqNorm item.answer = []
    · rw [if_pos hv]; exact ih seen
    · rw [if_neg hv]
      by_cases hs : lowerStr (faqNorm item.question) ∈ seen
      · rw [if_pos hs]; exact ih seen
      · rw [if_neg hs]
        obtain ⟨hnd, hnotin⟩ := ih (lowerStr (faqNorm item.question) :: seen)
        constructor
        · rw [List.map_cons]
          refine List.nodup_cons.mpr ⟨?_, hnd⟩
          intro hmem
          simp only [List.mem_map] at hmem
          obtain ⟨e, he, heq⟩ := hmem
          exact hnotin e he (by rw [heq]; exact List.mem_cons_self _ _)
        · intro e he
          rcases List.mem_cons.mp he with rfl | h2
          · exact hs
          · intro hmem
            exact hnotin e h2 (List.mem_cons_of_mem _ hmem)

theorem sanitizeFaqGo_length_le :
    ∀ (items : List FaqEntry) (seen : List (List Char)),
      (sanitizeFaqGo items seen).length ≤ items.length := by
  intro items
  induction items with
  | nil => intro seen; simp [sanitizeFaqGo]
  | cons item rest ih =>
    intro seen
    rw [sanitizeFaqGo]
    by_cases hv : faqNorm item.question = [] ∨ faqNorm item.answer = []
    · rw [if_pos hv]
      exact Nat.le_trans (ih seen) (by simp)
    · rw [if_neg hv]
      by_cases hs : lowerStr (faqNorm item.question) ∈ seen
      · rw [if_pos hs]
        exact Nat.le_trans (ih seen) (by simp)
      · rw [if_neg hs]
        simpa using ih (lowerStr (faqNorm item.question) :: seen)

/-- Every transcript poll starts strictly before the deadline; the sleep
after it never exceeds the remaining budget measured at the top of the
iteration. -/
theorem supaPollGo_steps_bounded (ev : Nat → SupaPollEvent) (budget intv : ℚ) :
    ∀ (fuel i : Nat) (t : ℚ),
      ∀ step ∈ (supaPollGo ev budget intv fuel i t).1,
        step.start < budget ∧ step.sleep ≤ budget - step.start := by
  intro fuel
  induction fuel with
  | zero => intro i t step h; simp [supaPollGo] at h
  | succ fuel ih =>
    intro i t step h
    rw [supaPollGo] at h
    by_cases hrem : budget - t ≤ 0
    · rw [if_pos hrem] at h; simp at h
    · rw [if_neg hrem] at h
      push_neg at hrem
      cases hcl : supadata_classify (ev i).status (ev i).hasContent with
      | success =>
        simp only [hcl] at h
        simp only [List.mem_singleton] at h
        subst h
        constructor
        · simpa using hrem
        · simp; linarith
      | failure =>
        simp only [hcl] at h
        simp only [List.mem_singleton] at h
        subst h
        constructor
        · simpa using hrem
        · simp; linarith
      | keepPolling =>
        simp only [hcl] at h
        rcases List.mem_cons.mp h with rfl | h2
        · refine ⟨by simpa using hrem, ?_⟩
          simp only
          calc min intv (max 0 (budget - t)) ≤ max 0 (budget - t) := min_le_right _ _
            _ = budget - t := by rw [max_eq_right (le_of_lt (by linarith))]
        · exact ih (i + 1) _ step h2

/-- Every deep-search poll starts strictly before the budget elapses. -/
theorem deepPollGo_steps_bounded (ev : Nat → DeepPollEvent) (budget : ℚ) :
    ∀ (fuel i : Nat) (t : ℚ),
      ∀ step ∈ (deepPollGo ev budget fuel i t).1, step.start < budget := by
  intro fuel
  induction fuel with
  | zero => intro i t step h; simp [deepPollGo] at h
  | succ fuel ih =>
    intro i t step h
    rw [deepPollGo] at h
    by_cases hrem : budget ≤ t
    · rw [if_pos hrem] at h; simp at h
    · rw [if_neg hrem] at h
      push_neg at hrem
      cases hcl : deep_classify (ev i).status with
      | success =>
        simp only [hcl, List.mem_singleton] at h
        subst h; simpa using hrem
      | failure =>
        simp only [hcl, List.mem_singleton] at h
        subst h; simpa using hrem
      | keepPolling =>
        simp only [hcl] at h
        rcases List.mem_cons.mp h with rfl | h2
        · simpa using hrem
        · exact ih (i + 1) _ step h2

/-- When every response keeps the loop polling, the transcript loop raises
the timeout error (never a success) before exhausting a fuel of
`10 * budget + 2`: every iteration advances time by at least `1/10`
(or reaches the deadline exactly). -/
theorem supaPollGo_timeout (ev : Nat → SupaPollEvent) (budget intv : ℚ)
    (hintv : 1/10 ≤ intv) (hdur : ∀ i, 0 ≤ (ev i).dur)
    (hcont : ∀ i, supadata_classify (ev i).status (ev i).hasContent = .keepPolling) :
    ∀ (fuel i : Nat) (t : ℚ), max 0 (budget - t) * 10 + 1 ≤ (fuel : ℚ) →
      (supaPollGo ev budget intv fuel i t).2 = .timeoutError := by
  intro fuel
  induction fuel with
  | zero =>
    intro i t hfuel
    exfalso
    have h0 : (0 : ℚ) ≤ max 0 (budget - t) := le_max_left _ _
    simp only [Nat.cast_zero] at hfuel
    nlinarith
  | succ fuel ih =>
    intro i t hfuel
    rw [supaPollGo]
    by_cases hrem : budget - t ≤ 0
    · rw [if_pos hrem]
    · rw [if_neg hrem]
      push_neg at hrem
      simp only [hcont i]
      apply ih (i + 1)
      have hd := hdur i
      have hmax : max 0 (budget - t) = budget - t :=
        max_eq_right (le_of_lt hrem)
      rw [hmax] at hfuel
      have hfuel1 : (1 : ℚ) ≤ (fuel : ℚ) := by
        have : (1 : ℚ) < (fuel : ℚ) + 1 := by push_cast at hfuel ⊢; nlinarith
        have h1 : (0 : ℚ) < (fuel : ℚ) := by linarith
        have : 0 < fuel := by exact_mod_cast h1
        exact_mod_cast this
      by_cases hcase : budget - t ≤ intv
      · -- the clamped sleep reaches the deadline exactly
        have hslp : min intv (max 0 (budget - t)) = budget - t := by
          rw [hmax, min_eq_right hcase]
        rw [hslp]
        have hz : max 0 (budget - (t + (ev i).dur + (budget - t))) = 0 :=
          max_eq_left (by linarith)
        rw [hz]
        linarith
      · push_neg at hcase
        have hslp : min intv (max 0 (budget - t)) = intv := by
          rw [hmax, min_eq_left (le_of_lt hcase)]
        rw [hslp]
        have hle : max 0 (budget - (t + (ev i).dur + intv)) ≤ budget - t - intv := by
          apply max_le (by linarith) (by linarith)
        push_cast at hfuel ⊢
        nlinarith

/-- When every response keeps the loop polling, the deep-search loop
raises the timeout error before running out of fuel: every iteration
advances time by the fixed 1.0s sleep. -/
theorem deepPollGo_timeout (ev : Nat → DeepPollEvent) (budget : ℚ)
    (hdur : ∀ i, 0 ≤ (ev i).dur)
    (hcont : ∀ i, deep_classify (ev i).status = .keepPolling) :
    ∀ (fuel i : Nat) (t : ℚ), max 0 (budget - t) + 1 ≤ (fuel : ℚ) →
      (deepPollGo ev budget fuel i t).2 = .timeoutError := by
  intro fuel
  induction fuel with
  | zero =>
    intro i t hfuel
    exfalso
    have h0 : (0 : ℚ) ≤ max 0 (budget - t) := le_max_left _ _
    simp only [Nat.cast_zero] at hfuel
    linarith
  | succ fuel ih =>
    intro i t hfuel
    rw [deepPollGo]
    by_cases hrem : budget ≤ t
    · rw [if_pos hrem]
    · rw [if_neg hrem]
      push_neg at hrem
      simp only [hcont i]
      apply ih (i + 1)
      have hd := hdur i
      have hmax : max 0 (budget - t) = budget - t :=
        max_eq_right (by linarith)
      rw [hmax] at hfuel
      have hle : max 0 (budget - (t + (ev i).dur + 1)) ≤ max 0 (budget - t - 1) :=
        max_le_max (le_refl 0) (by linarith)
      have hcases : max 0 (budget - t - 1) + 1 ≤ (fuel : ℚ) := by
        rcases le_or_lt (budget - t - 1) 0 with hc | hc
        · rw [max_eq_left hc]
          have h2 : (1 : ℚ) < (fuel : ℚ) + 1 := by push_cast at hfuel ⊢; linarith
          have h1 : (0 : ℚ) < (fuel : ℚ) := by linarith
          have h3 : 0 < fuel := by exact_mod_cast h1
          have h4 : (1 : ℚ) ≤ (fuel : ℚ) := by exact_mod_cast h3
          linarith
        · rw [max_eq_right (le_of_lt hc)]
          push_cast at hfuel ⊢
          linarith
      linarith

theorem stripPrefixCI_sound :
    ∀ (pat l m r : List Char), stripPrefixCI pat l = some (m, r) →
      l = m ++ r ∧ m.length = pat.length ∧ m.map Char.toLower = pat := by
  intro pat
  induction pat with
  | nil =>
    intro l m r h
    simp only [stripPrefixCI, Option.some.injEq, Prod.mk.injEq] at h
    obtain ⟨rfl, rfl⟩ := h
    simp
  | cons p ps ih =>
    intro l m r h
    cases l with
    | nil => simp [stripPrefixCI] at h
    | cons c cs =>
      rw [stripPrefixCI] at h
      by_cases hc : c.toLower = p
      · rw [if_pos hc] at h
        cases hrec : stripPrefixCI ps cs with
        | none => rw [hrec] at h; simp at h
        | some pr =>
          obtain ⟨m', r'⟩ := pr
          rw [hrec] at h
          simp only [Option.some.injEq, Prod.mk.injEq] at h
          obtain ⟨hm, hr⟩ := h
          have h2 := ih cs m' r' hrec
          subst hm; subst hr
          refine ⟨by rw [h2.1]; rfl, by simp [h2.2.1], by simp [hc, h2.2.2]⟩
      · rw [if_neg hc] at h; simp at h

theorem matchHttpScheme_sound {l m r : List Char}
    (h : matchHttpScheme l = some (m, r)) :
    l = m ++ r ∧ m ≠ [] ∧ Char.toLower (m.headD ' ') = 'h' := by
  rw [matchHttpScheme] at h
  cases h1 : stripPrefixCI ['h', 't', 't', 'p'] l with
  | none => rw [h1] at h; simp at h
  | some pr1 =>
    obtain ⟨m1, r1⟩ := pr1
    rw [h1] at h
    obtain ⟨hl1, hlen1, hlow1⟩ := stripPrefixCI_sound _ _ _ _ h1
    have hm1ne : m1 ≠ [] := by
      intro hx; rw [hx] at hlen1; simp at hlen1
    have hhead1 : Char.toLower (m1.headD ' ') = 'h' := by
      cases m1 with
      | nil => exact absurd rfl hm1ne
      | cons a t =>
        simp only [List.map_cons, List.cons.injEq] at hlow1
        simpa using hlow1.1
    cases r1 with
    | nil => simp at h
    | cons c r2 =>
      simp only at h
      by_cases hc : c.toLower = 's'
      · rw [if_pos hc] at h
        cases h2 : stripPrefixCI [':', '/', '/'] r2 with
        | some pr2 =>
          obtain ⟨m2, r3⟩ := pr2
          rw [h2] at h
          simp only [Option.some.injEq, Prod.mk.injEq] at h
          obtain ⟨hm, hr⟩ := h
          obtain ⟨hl2, _, _⟩ := stripPrefixCI_sound _ _ _ _ h2
          subst hm; subst hr
          refine ⟨?_, by simp [hm1ne], ?_⟩
          · rw [hl1, hl2]; simp
          · cases m1 with
            | nil => exact absurd rfl hm1ne
            | cons a t => simpa using hhead1
        | none =>
          rw [h2] at h
          cases h3 : stripPrefixCI [':', '/', '/'] (c :: r2) with
          | some pr3 =>
            obtain ⟨m3, r4⟩ := pr3
            rw [h3] at h
            simp only [Option.some.injEq, Prod.mk.injEq] at h
            obtain ⟨hm, hr⟩ := h
            obtain ⟨hl3, _, _⟩ := stripPrefixCI_sound _ _ _ _ h3
            subst hm; subst hr
            refine ⟨?_, by simp [hm1ne], ?_⟩
            · rw [hl1, hl3]; simp
            · cases m1 with
              | nil => exact absurd rfl hm1ne
              | cons a t => simpa using hhead1
          | none => rw [h3] at h; simp at h
      · rw [if_neg hc] at h
        cases h3 : stripPrefixCI [':', '/', '/'] (c :: r2) with
        | some pr3 =>
          obtain ⟨m3, r4⟩ := pr3
          rw [h3] at h
          simp only [Option.some.injEq, Prod.mk.injEq] at h
          obtain ⟨hm, hr⟩ := h
          obtain ⟨hl3, _, _⟩ := stripPrefixCI_sound _ _ _ _ h3
          subst hm; subst hr
          refine ⟨?_, by simp [hm1ne], ?_⟩
          · rw [hl1, hl3]; simp
          · cases m1 with
            | nil => exact absurd rfl hm1ne
            | cons a t => simpa using hhead1
        | none => rw [h3] at h; simp at h

theorem headD_append_left {l : List Char} (m : List Char) (d : Char)
    (h : l ≠ []) : (l ++ m).headD d = l.headD d := by
  cases l with
  | nil => exact absurd rfl h
  | cons a t => rfl

theorem getLastD_cons_cons (a b : Char) (t : List Char) (d : Char) :
    (a :: b :: t).getLastD d = (b :: t).getLastD d := rfl

theorem getLastD_append_right (l : List Char) {m : List Char} (d : Char)
    (h : m ≠ []) : (l ++ m).getLastD d = m.getLastD d := by
  induction l with
  | nil => rfl
  | cons a t ih =>
    have hne : t ++ m ≠ [] := by
      intro hx
      rcases List.append_eq_nil.mp hx with ⟨_, h2⟩
      exact h h2
    cases hx : t ++ m with
    | nil => exact absurd hx hne
    | cons b s =>
      calc ((a :: t) ++ m).getLastD d = (a :: b :: s).getLastD d := by rw [List.cons_append, hx]
        _ = (b :: s).getLastD d := getLastD_cons_cons a b s d
        _ = (t ++ m).getLastD d := by rw [hx]
        _ = m.getLastD d := ih

theorem getLastD_mem {l : List Char} (d : Char) (h : l ≠ []) :
    l.getLastD d ∈ l := by
  induction l with
  | nil => exact absurd rfl h
  | cons a t ih =>
    cases t with
    | nil => simp
    | cons b s =>
      rw [getLastD_cons_cons]
      exact List.mem_cons_of_mem a (ih (by simp))

theorem headD_reverse (l : List Char) (d : Char) :
    l.reverse.headD d = l.getLastD d := by
  induction l with
  | nil => rfl
  | cons a t ih =>
    cases t with
    | nil => rfl
    | cons b s =>
      rw [List.reverse_cons, headD_append_left [a] d (by simp), ih,
        getLastD_cons_cons]

/-- `str.strip()` is the identity on a string with non-whitespace ends. -/
theorem pyStrip_eq_self {l : List Char} (hne : l ≠ [])
    (hh : isSpaceChar (l.headD ' ') = false)
    (hl : isSpaceChar (l.getLastD ' ') = false) : pyStrip l = l := by
  have h1 : lstripWs l = l := by
    cases l with
    | nil => exact absurd rfl hne
    | cons a t =>
      rw [lstripWs, List.dropWhile_cons, if_neg (by simp_all)]
  rw [pyStrip, h1]
  have h2 : l.reverse.dropWhile isSpaceChar = l.reverse := by
    cases hr : l.reverse with
    | nil => rfl
    | cons a t =>
      have ha : a = l.getLastD ' ' := by
        have hx := headD_reverse l ' '
        rw [hr] at hx
        simpa using hx
      rw [List.dropWhile_cons, if_neg (by rw [ha, hl]; simp)]
  rw [h2, List.reverse_reverse]

theorem pyStrip_ne_nil {l : List Char} (hne : l ≠ [])
    (hh : isSpaceChar (l.headD ' ') = false)
    (hl : isSpaceChar (l.getLastD ' ') = false) : pyStrip l ≠ [] := by
  rw [pyStrip_eq_self hne hh hl]; exact hne

theorem pyUrlunparse_ne_nil {p : UrlParts} (h : p.scheme ≠ []) :
    pyUrlunparse p ≠ [] := by
  simp only [pyUrlunparse]
  rw [if_pos h]
  split_ifs <;> simp [List.append_eq_nil, h]

/-- `normalize_url` never collapses a stripped non-empty URL to the empty
string. -/
theorem normalize_url_ne_nil {u : List Char} (h : pyStrip u ≠ []) :
    normalize_url u ≠ [] := by
  have hu : u ≠ [] := by
    intro hx; rw [hx] at h; exact h rfl
  rw [normalize_url, if_neg hu]
  simp only
  rw [if_neg h]
  by_cases hs : (pyUrlparse (pyStrip u)).scheme = [] ∨ (pyUrlparse (pyStrip u)).netloc = []
  · rw [if_pos hs]; exact h
  · rw [if_neg hs]
    push_neg at hs
    exact pyUrlunparse_ne_nil hs.1

theorem tryBare_sound {l url r : List Char} (h : tryBare l = some (url, r)) :
    l = url ++ r ∧ url ≠ [] ∧ Char.toLower (url.headD ' ') = 'h' ∧
      isBareUrlChar (url.getLastD ' ') = true := by
  rw [tryBare] at h
  cases h1 : matchHttpScheme l with
  | none => rw [h1] at h; simp at h
  | some pr =>
    obtain ⟨sch, rest⟩ := pr
    rw [h1] at h
    simp only at h
    by_cases hrun : rest.takeWhile isBareUrlChar = []
    · rw [if_pos hrun] at h; simp at h
    · rw [if_neg hrun] at h
      simp only [Option.some.injEq, Prod.mk.injEq] at h
      obtain ⟨hm, hr⟩ := h
      obtain ⟨hl, hne, hhead⟩ := matchHttpScheme_sound h1
      subst hm; subst hr
      refine ⟨?_, by simp [hne], ?_, ?_⟩
      · rw [hl]
        rw [List.append_assoc, List.takeWhile_append_dropWhile]
      · rw [headD_append_left _ ' ' hne]; exact hhead
      · rw [getLastD_append_right _ ' ' hrun]
        exact List.mem_takeWhile_imp (getLastD_mem ' ' hrun)

theorem tryMarkdown_sound {l lab url whole r : List Char}
    (h : tryMarkdown l = some (lab, url, whole, r)) :
    l = whole ++ r ∧ whole ≠ [] ∧ url ≠ [] ∧ lab ≠ [] ∧
      Char.toLower (url.headD ' ') = 'h' ∧
      isMdUrlChar (url.getLastD ' ') = true := by
  rw [tryMarkdown.eq_def] at h
  split at h
  next t =>
    split at h
    next => simp at h
    next hlab =>
      split at h
      next r2 heq1 =>
        split at h
        next => simp at h
        next sch r3 h2 =>
          split at h
          next => simp at h
          next hrun =>
            split at h
            next rest heq4 =>
              simp only [Option.some.injEq, Prod.mk.injEq] at h
              obtain ⟨hlabeq, hurl, hwhole, hrest⟩ := h
              obtain ⟨hl2, hne2, hhead2⟩ := matchHttpScheme_sound h2
              subst hlabeq; subst hurl; subst hwhole; subst hrest
              refine ⟨?_, by simp, by simp [hne2], hlab, ?_, ?_⟩
              · have ht : t = List.takeWhile (fun c => c ≠ ']') t ++ ']' :: '(' :: r2 := by
                  conv_lhs => rw [← List.takeWhile_append_dropWhile
                    (p := fun c => c ≠ ']') (l := t)]
                  rw [heq1]
                have ht2 : r2 = sch ++ (List.takeWhile isMdUrlChar r3 ++ ')' :: rest) := by
                  rw [hl2]
                  congr 1
                  conv_lhs => rw [← List.takeWhile_append_dropWhile
                    (p := isMdUrlChar) (l := r3)]
                  rw [heq4]
                conv_lhs => rw [ht, ht2]
                simp
              · rw [headD_append_left _ ' ' hne2]; exact hhead2
              · rw [getLastD_append_right _ ' ' hrun]
                exact List.mem_takeWhile_imp (getLastD_mem ' ' hrun)
            next => simp at h
      next => simp at h
  next => simp at h

theorem tryMarkdown_rest_length {l lab url whole r : List Char}
    (h : tryMarkdown l = some (lab, url, whole, r)) : r.length < l.length := by
  obtain ⟨hl, hne, -⟩ := tryMarkdown_sound h
  rw [hl, List.length_append]
  cases whole with
  | nil => exact absurd rfl hne
  | cons a t => simp

theorem tryBare_rest_length {l url r : List Char}
    (h : tryBare l = some (url, r)) : r.length < l.length := by
  obtain ⟨hl, hne, -⟩ := tryBare_sound h
  rw [hl, List.length_append]
  cases url with
  | nil => exact absurd rfl hne
  | cons a t => simp

theorem space_toLower_ne_h {c : Char} (h : isSpaceChar c = true) :
    c.toLower ≠ 'h' := by
  rw [isSpaceChar] at h
  simp only [Bool.or_eq_true, decide_eq_true_eq] at h
  rcases h with ((((rfl | rfl) | rfl) | rfl) | rfl) | rfl <;> decide

/-- All URLs produced by the scanner normalize to something non-empty
(they start with an `h`/`H` and end with a non-whitespace character). -/
theorem scanSegsGo_normalized_ne_nil :
    ∀ (fuel : Nat) (l : List Char) (label : Option (List Char)) (url whole : List Char),
      Seg.link label url whole ∈ scanSegsGo fuel l → normalize_url url ≠ [] := by
  intro fuel
  induction fuel with
  | zero => intro l label url whole h; simp [scanSegsGo] at h
  | succ fuel ih =>
    intro l label url whole h
    simp only [scanSegsGo] at h
    cases hm : tryMarkdown l with
    | some q =>
      obtain ⟨lab, url2, whole2, r⟩ := q
      rw [hm] at h
      rcases List.mem_cons.mp h with heq | h2
      · injection heq with h1 h2 h3
        subst h2
        obtain ⟨-, -, hune, -, hhead, hlast⟩ := tryMarkdown_sound hm
        apply normalize_url_ne_nil
        apply pyStrip_ne_nil hune
        · by_contra hx
          simp only [Bool.not_eq_false] at hx
          exact space_toLower_ne_h hx hhead
        · rw [isMdUrlChar] at hlast
          simp only [Bool.and_eq_true, Bool.not_eq_true'] at hlast
          exact hlast.1
      · exact ih r label url whole h2
    | none =>
      rw [hm] at h
      cases hb : tryBare l with
      | some q =>
        obtain ⟨url2, r⟩ := q
        rw [hb] at h
        rcases List.mem_cons.mp h with heq | h2
        · injection heq with h1 h2 h3
          subst h2
          obtain ⟨-, hne, hhead, hlast⟩ := tryBare_sound hb
          apply normalize_url_ne_nil
          apply pyStrip_ne_nil hne
          · by_contra hx
            simp only [Bool.not_eq_false] at hx
            exact space_toLower_ne_h hx hhead
          · rw [isBareUrlChar] at hlast
            simp only [Bool.and_eq_true, Bool.not_eq_true'] at hlast
            exact hlast.1.1.1
        · exact ih r label url whole h2
      | none =>
        rw [hb] at h
        cases l with
        | nil => simp at h
        | cons c rest =>
          rcases List.mem_cons.mp h with heq | h2
          · exact absurd heq (by simp)
          · exact ih rest label url whole h2

/-- The imperative seen-set rewrite agrees with the first-occurrence
specification whenever every link in the segment list has a non-empty
normalized URL and the two accumulators agree on non-empty members. -/
theorem enforceGo_eq_firstOccRewrite :
    ∀ (segs : List Seg) (seen acc : List (List Char)),
      (∀ label url whole, Seg.link label url whole ∈ segs → normalize_url url ≠ []) →
      (∀ u, u ≠ [] → (u ∈ seen ↔ u ∈ acc)) →
      (enforceGo segs seen).1 = firstOccRewrite segs acc := by
  intro segs
  induction segs with
  | nil => intro seen acc hlinks hagree; rfl
  | cons seg rest ih =>
    intro seen acc hlinks hagree
    cases seg with
    | chr c =>
      rw [enforceGo, firstOccRewrite]
      show c :: (enforceGo rest seen).1 = c :: firstOccRewrite rest acc
      rw [ih seen acc (fun label url whole h => hlinks label url whole
        (List.mem_cons_of_mem _ h)) hagree]
    | link label url whole =>
      have hnn : normalize_url url ≠ [] :=
        hlinks label url whole (List.mem_cons_self _ _)
      rw [enforceGo, firstOccRewrite]
      simp only
      by_cases hmem : normalize_url url ∈ seen
      · rw [if_pos ⟨hnn, hmem⟩, if_pos ((hagree _ hnn).mp hmem)]
        show plainTextOf label url ++ (enforceGo rest seen).1 =
          plainTextOf label url ++ firstOccRewrite rest (acc ++ [normalize_url url])
        congr 1
        apply ih
        · exact fun label' url' whole' h => hlinks label' url' whole'
            (List.mem_cons_of_mem _ h)
        · intro u hu
          rw [hagree u hu]
          constructor
          · exact fun h => List.mem_append_left _ h
          · intro h
            rcases List.mem_append.mp h with h1 | h1
            · exact h1
            · simp only [List.mem_singleton] at h1
              subst h1
              exact (hagree _ hnn).mp hmem
      · rw [if_neg (by intro hx; exact hmem hx.2),
          if_neg (fun hacc => hmem ((hagree _ hnn).mpr hacc)), if_pos hnn]
        show whole ++ (enforceGo rest (normalize_url url :: seen)).1 =
          whole ++ firstOccRewrite rest (acc ++ [normalize_url url])
        congr 1
        apply ih
        · exact fun label' url' whole' h => hlinks label' url' whole'
            (List.mem_cons_of_mem _ h)
        · intro u hu
          simp only [List.mem_cons, List.mem_append, List.mem_singleton,
            hagree u hu]
          tauto

/-! ### Claim theorems -/
/-- C2: `ensure_unique_slug` returns a slug outside the existing set; a
free desired slug is returned unchanged; a colliding one is suffixed `-k`
for the smallest `k ≥ 2` whose candidate is free; re-applying the function
to its own output against the same set returns it unchanged. -/
theorem c2_ensure_unique_slug_spec (existing : List (List Char)) (desired : List Char) :
    ensure_unique_slug existing desired ∉ existing ∧
    (desired ∉ existing → ensure_unique_slug existing desired = desired) ∧
    (desired ∈ existing → ∃ k, 2 ≤ k ∧
      ensure_unique_slug existing desired = slugCandidate desired k ∧
      slugCandidate desired k ∉ existing ∧
      ∀ i, 2 ≤ i → i < k → slugCandidate desired i ∈ existing) ∧
    ensure_unique_slug existing (ensure_unique_slug existing desired) =
      ensure_unique_slug existing desired := by
  refine ⟨ensure_unique_slug_not_mem existing desired, ?_,
    ensure_unique_slug_of_mem existing desired, ?_⟩
  · intro h
    rw [ensure_unique_slug, if_neg h]
  · have h1 := ensure_unique_slug_not_mem existing desired
    conv_lhs => rw [ensure_unique_slug]
    rw [if_neg h1]

/-- C2 witness: concrete collision forced to `joga-3`. -/
theorem c2_ensure_unique_slug_spec_witness :
    ((r"joga").toList ∉ exSlugs →
      ensure_unique_slug exSlugs ((r"joga").toList) = (r"joga").toList) ∧
    (∃ k, 2 ≤ k ∧
      ensure_unique_slug exSlugs ((r"joga").toList) =
        slugCandidate ((r"joga").toList) k ∧
      slugCandidate ((r"joga").toList) k ∉ exSlugs ∧
      ∀ i, 2 ≤ i → i < k → slugCandidate ((r"joga").toList) i ∈ exSlugs) ∧
    ensure_unique_slug exSlugs (ensure_unique_slug exSlugs ((r"joga").toList)) =
      ensure_unique_slug exSlugs ((r"joga").toList) :=
  ⟨(c2_ensure_unique_slug_spec exSlugs ((r"joga").toList)).2.1,
   (c2_ensure_unique_slug_spec exSlugs ((r"joga").toList)).2.2.1 (by decide),
   (c2_ensure_unique_slug_spec exSlugs ((r"joga").toList)).2.2.2⟩

/-- C3: the rewrite pass equals the first-occurrence specification: over
the matches of the combined markdown/bare-URL pattern in body order, a
match whose normalized URL already occurred (in the initial seen set or in
an earlier match) is replaced by its plain text (label, or scheme-stripped
URL), and every first occurrence keeps its hyperlink markup unchanged. -/
theorem c3_enforce_single_hyperlink_first_occurrence (text : List Char)
    (seen : List (List Char)) :
    (enforce_single_hyperlink_per_url text seen).1 =
      firstOccRewrite (scanSegs text) seen :=
  enforceGo_eq_firstOccRewrite (scanSegs text) seen seen
    (fun label url whole h =>
      scanSegsGo_normalized_ne_nil text.length text label url whole h)
    (fun _ _ => Iff.rfl)

/-- C6: every processed job terminates in `done`, `skipped` or `failed`;
starting from a row with no article, the final `article_id` is set exactly
when the terminal state is `done`; and the claim step only ever selects a
job whose status is `pending`, so a terminal job is never re-claimed. -/
theorem c6_job_state_machine (job : GenJob) (url : Option (List Char))
    (factory : FactoryOutcome) (gen : GenOutcome) (jobs : List GenJob) :
    ((process_job job url factory gen).status = statusDone ∨
      (process_job job url factory gen).status = statusSkipped ∨
      (process_job job url factory gen).status = statusFailed) ∧
    (job.articleId = none →
      (((process_job job url factory gen).articleId ≠ none) ↔
        (process_job job url factory gen).status = statusDone)) ∧
    (∀ j, next_pending jobs = some j → j.status = statusPending) := by
  refine ⟨?_, ?_, ?_⟩
  · cases url with
    | none => right; left; rfl
    | some u =>
      cases factory with
      | raises m => right; right; rfl
      | ok tr =>
        cases hft : fetch_raw_text tr with
        | none =>
          right; left
          simp only [process_job, hft, finalise_job]
        | some t =>
          cases gen with
          | ok p => left; simp only [process_job, hft, finalise_job]
          | articleError m => right; right; simp only [process_job, hft, finalise_job]
          | otherError m => right; right; simp only [process_job, hft, finalise_job]
  · intro h
    cases url with
    | none =>
      constructor
      · intro hx
        exact absurd h (by simpa [process_job] using hx)
      · intro hx
        exact absurd (by simpa [process_job] using hx) (by decide)
    | some u =>
      cases factory with
      | raises m =>
        simp [process_job, finalise_job]
        decide
      | ok tr =>
        cases hft : fetch_raw_text tr with
        | none =>
          simp [process_job, hft, finalise_job]
          decide
        | some t =>
          cases gen with
          | ok p => simp [process_job, hft, finalise_job]
          | articleError m =>
            simp [process_job, hft, finalise_job]
            decide
          | otherError m =>
            simp [process_job, hft, finalise_job]
            decide
  · intro j hj
    have h1 := List.find?_some hj
    exact of_decide_eq_true h1

/-- C6 witness: a successful run ends `done` with the article id set, and
the pending job of a mixed list is the one selected. -/
theorem c6_job_state_machine_witness :
    ((process_job exRunningJob (some ((r"https://youtu.be/x").toList))
        (.ok (.content exLongTranscript)) (.ok 7)).status = statusDone ∨
      (process_job exRunningJob (some ((r"https://youtu.be/x").toList))
        (.ok (.content exLongTranscript)) (.ok 7)).status = statusSkipped ∨
      (process_job exRunningJob (some ((r"https://youtu.be/x").toList))
        (.ok (.content exLongTranscript)) (.ok 7)).status = statusFailed) ∧
    (((process_job exRunningJob (some ((r"https://youtu.be/x").toList))
        (.ok (.content exLongTranscript)) (.ok 7)).articleId ≠ none) ↔
      (process_job exRunningJob (some ((r"https://youtu.be/x").toList))
        (.ok (.content exLongTranscript)) (.ok 7)).status = statusDone) ∧
    (⟨statusPending, none, none, none⟩ : GenJob).status = statusPending :=
  ⟨(c6_job_state_machine exRunningJob (some ((r"https://youtu.be/x").toList))
      (.ok (.content exLongTranscript)) (.ok 7) exJobs).1,
   (c6_job_state_machine exRunningJob (some ((r"https://youtu.be/x").toList))
      (.ok (.content exLongTranscript)) (.ok 7) exJobs).2.1 (by decide),
   (c6_job_state_machine exRunningJob (some ((r"https://youtu.be/x").toList))
      (.ok (.content exLongTranscript)) (.ok 7) exJobs).2.2
     ⟨statusPending, none, none, none⟩ (by decide)⟩

/-- C7 counterexample: a 50-character transcript against the 200-character
minimum ends the job `skipped` with a null `article_id`, but the recorded
error is the fixed string `no transcript text`, which mentions neither the
transcript's length nor its shortness nor either character count — against
the claim that the message mentions the insufficient length. -/
theorem c7_skip_message_counterexample :
    (process_job exRunningJob (some ((r"https://youtu.be/v").toList))
      (.ok (.content c7Transcript)) (.ok 1)).status = statusSkipped ∧
    (process_job exRunningJob (some ((r"https://youtu.be/v").toList))
      (.ok (.content c7Transcript)) (.ok 1)).articleId = none ∧
    (process_job exRunningJob (some ((r"https://youtu.be/v").toList))
      (.ok (.content c7Transcript)) (.ok 1)).error = some noTranscriptTextMsg ∧
    hasSub ((r"length").toList) noTranscriptTextMsg = false ∧
    hasSub ((r"short").toList) noTranscriptTextMsg = false ∧
    hasSub ((r"50").toList) noTranscriptTextMsg = false ∧
    hasSub ((r"200").toList) noTranscriptTextMsg = false := by
  decide

/-- C7 (amended): a transcript below the 200-character minimum ends the
job `skipped` (not `failed`) with `article_id` null and the fixed error
message `no transcript text`; the insufficient length is only logged. -/
theorem c7_short_transcript_skipped (job : GenJob) (url content : List Char)
    (gen : GenOutcome)
    (hshort : (pyStrip content).length < MIN_TRANSCRIPT_CHARS) :
    (process_job job (some url) (.ok (.content content)) gen).status =
      statusSkipped ∧
    (process_job job (some url) (.ok (.content content)) gen).articleId = none ∧
    (process_job job (some url) (.ok (.content content)) gen).error =
      some noTranscriptTextMsg := by
  have hf : fetch_raw_text (.content content) = none := by
    rw [fetch_raw_text, if_pos hshort]
  refine ⟨?_, ?_, ?_⟩ <;> simp only [process_job, hf, finalise_job]

/-- C7 witness: the amended statement at the 50-character transcript. -/
theorem c7_short_transcript_skipped_witness :
    (process_job exRunningJob (some ((r"https://youtu.be/v").toList))
      (.ok (.content c7Transcript)) (.ok 1)).status = statusSkipped ∧
    (process_job exRunningJob (some ((r"https://youtu.be/v").toList))
      (.ok (.content c7Transcript)) (.ok 1)).articleId = none ∧
    (process_job exRunningJob (some ((r"https://youtu.be/v").toList))
      (.ok (.content c7Transcript)) (.ok 1)).error = some noTranscriptTextMsg :=
  c7_short_transcript_skipped exRunningJob ((r"https://youtu.be/v").toList)
    c7Transcript (.ok 1) (by decide)

/-- C8: every failure of the research step — provider construction raising
(missing configuration) or the search call raising, typed or not — is
absorbed at the `_run_research` boundary into `(None, [])`, and the
function returns normally instead of propagating the failure. -/
theorem c8_research_failures_absorbed :
    (∀ msg search, run_research (.deepSearchError msg) search = (none, [])) ∧
    (∀ msg search, run_research (.otherError msg) search = (none, [])) ∧
    (∀ msg, run_research .ok (.deepSearchError msg) = (none, [])) ∧
    (∀ msg, run_research .ok (.otherError msg) = (none, [])) :=
  ⟨fun _ _ => rfl, fun _ _ => rfl, fun _ => rfl, fun _ => rfl⟩

/-- C5 counterexample: the transcript poll does not treat `succeeded` as a
success terminal value (it keeps polling), and the OpenAI run poll treats
`expired` — outside the claimed failure set — as a failure terminal. -/
theorem c5_status_sets_counterexample :
    supadata_classify (some ((r"succeeded").toList)) false ≠ PollClass.success ∧
    supadata_classify (some ((r"succeeded").toList)) false = PollClass.keepPolling ∧
    supadata_classify (some ((r"error").toList)) false ≠ PollClass.failure ∧
    openai_classify ((r"expired").toList) = PollClass.failure := by
  refine ⟨by decide, by decide, by decide, by decide⟩

/-- C5 (amended): each integration has its own terminal-status sets.  The
transcript poll recognises (case-insensitively) only `completed` as
success and only `failed` as failure, with a content-bearing payload as
implicit success; the deep-search poll uses the full synonym sets
`completed|succeeded|success|finished` and `failed|error|cancelled`
case-insensitively; the OpenAI run poll compares case-sensitively, with
`completed` the only success and `failed|cancelled|expired` failures; any
other status keeps polling. -/
theorem c5_status_classifiers (s : List Char) (hasContent : Bool) :
    (lowerStr s = (r"completed").toList → s ≠ [] →
      supadata_classify (some s) hasContent = .success) ∧
    (lowerStr s = (r"failed").toList → s ≠ [] →
      supadata_classify (some s) hasContent = .failure) ∧
    (lowerStr s ≠ (r"completed").toList → lowerStr s ≠ (r"failed").toList →
      supadata_classify (some s) hasContent =
        (if hasContent then .success else .keepPolling)) ∧
    (deep_classify (some s) = .success ↔
      (lowerStr s = (r"completed").toList ∨ lowerStr s = (r"succeeded").toList ∨
        lowerStr s = (r"success").toList ∨ lowerStr s = (r"finished").toList)) ∧
    (deep_classify (some s) = .failure ↔
      (lowerStr s = (r"failed").toList ∨ lowerStr s = (r"error").toList ∨
        lowerStr s = (r"cancelled").toList)) ∧
    (openai_classify s = .success ↔ s = (r"completed").toList) ∧
    (openai_classify s = .failure ↔
      (s = (r"failed").toList ∨ s = (r"cancelled").toList ∨
        s = (r"expired").toList)) := by
  refine ⟨?_, ?_, ?_, ?_, ?_, ?_, ?_⟩
  · intro h hne
    simp only [supadata_classify]
    rw [if_pos hne, if_pos h]
  · intro h hne
    simp only [supadata_classify]
    rw [if_pos hne, if_neg (by rw [h]; decide), if_pos h]
  · intro h1 h2
    by_cases hne : s = []
    · subst hne
      simp only [supadata_classify]
      rw [if_neg (by simp)]
    · simp only [supadata_classify]
      rw [if_pos hne, if_neg h1, if_neg h2]
  · simp only [deep_classify]
    split_ifs with h1 h2
    · exact ⟨fun _ => h1, fun _ => rfl⟩
    · exact ⟨fun hx => by simp at hx, fun hd => absurd hd h1⟩
    · exact ⟨fun hx => by simp at hx, fun hd => absurd hd h1⟩
  · simp only [deep_classify]
    split_ifs with h1 h2
    · refine ⟨fun hx => by simp at hx, fun hd => ?_⟩
      rcases hd with h | h | h <;> rw [h] at h1 <;>
        rcases h1 with h1 | h1 | h1 | h1 <;> simp at h1
    · exact ⟨fun _ => h2, fun _ => rfl⟩
    · exact ⟨fun hx => by simp at hx, fun hd => absurd hd h2⟩
  · simp only [openai_classify]
    split_ifs with h1 h2
    · exact ⟨fun _ => h2, fun _ => rfl⟩
    · refine ⟨fun hx => by simp at hx, fun hd => absurd hd h2⟩
    · refine ⟨fun hx => by simp at hx, fun hd => absurd (Or.inl hd) h1⟩
  · simp only [openai_classify]
    split_ifs with h1 h2
    · refine ⟨fun hx => by simp at hx, fun hd => ?_⟩
      rcases hd with h | h | h <;> rw [h] at h2 <;> simp at h2
    · refine ⟨fun _ => ?_, fun _ => rfl⟩
      rcases h1 with h | h | h | h
      · exact absurd h h2
      · exact Or.inl h
      · exact Or.inr (Or.inl h)
      · exact Or.inr (Or.inr h)
    · refine ⟨fun hx => by simp at hx, fun hd => ?_⟩
      rcases hd with h | h | h <;> exact absurd (by simp [h]) h1

/-- C5 witness: the classifiers at concrete statuses. -/
theorem c5_status_classifiers_witness :
    supadata_classify (some ((r"Completed").toList)) false = .success ∧
    supadata_classify (some ((r"running").toList)) true = .success ∧
    (deep_classify (some ((r"SUCCEEDED").toList)) = .success ↔
      (lowerStr ((r"SUCCEEDED").toList) = (r"completed").toList ∨
        lowerStr ((r"SUCCEEDED").toList) = (r"succeeded").toList ∨
        lowerStr ((r"SUCCEEDED").toList) = (r"success").toList ∨
        lowerStr ((r"SUCCEEDED").toList) = (r"finished").toList)) :=
  ⟨(c5_status_classifiers ((r"Completed").toList) false).1 (by decide) (by decide),
   by
    have h := (c5_status_classifiers ((r"running").toList) true).2.2.1
      (by decide) (by decide)
    simpa using h,
   (c5_status_classifiers ((r"SUCCEEDED").toList) false).2.2.2.1⟩

/-- C1 counterexample: a document whose four section bodies all meet the
400-character schema floor, whose first body links the same normalized URL
twice.  After the section pipeline of `prepare_document_for_publication`
(context reorder, `apply_sources_presentation` link rewrite,
recommendations upsert — with validation failures absorbed by
`model_construct`), the first body has shrunk to 385 characters, below the
floor: the rewrite of the duplicate link removed its markup. -/
theorem c1_body_floor_counterexample :
    (∀ s ∈ c1Sections, 400 ≤ s.body.length) ∧
    ((prepareSectionsPipeline c1Sections false
        (format_recommendations_section [])).headD ⟨[], []⟩).body.length = 385 ∧
    385 < 400 := by
  refine ⟨by decide, by decide, by decide⟩

/-- C1 (amended): the FAQ half of the claim: `sanitize_faq` keeps no entry
with an empty question or answer after whitespace normalisation, its
output's casefolded questions are pairwise distinct, its length never
exceeds the input length (hence stays within the schema maximum), and it
equals the first-occurrence specification: an entry is kept exactly when
it is valid and no earlier valid entry shares its casefolded question.
The section-body floor, by contrast, is not re-established by
`prepare_document_for_publication` (see the counterexample). -/
theorem c1_sanitize_faq_invariants (items : List FaqEntry) :
    (∀ e ∈ sanitize_faq items, e.question ≠ [] ∧ e.answer ≠ []) ∧
    ((sanitize_faq items).map (fun e => lowerStr e.question)).Nodup ∧
    (sanitize_faq items).length ≤ items.length ∧
    sanitize_faq items = sanitizeFaqFirstOccSpec items [] := by
  refine ⟨?_, ?_, ?_, ?_⟩
  · intro e he
    have h := sanitizeFaqGo_entries_valid items [] e he
    exact ⟨h.1, h.2.1⟩
  · exact (sanitizeFaqGo_nodup_lower items []).1
  · exact sanitizeFaqGo_length_le items []
  · exact sanitizeFaqGo_eq_spec items [] [] (fun _ => Iff.rfl)

/-- C1 witness: the FAQ invariants at a concrete list where the second
entry repeats the first question in different case and the third has a
whitespace-only question. -/
theorem c1_sanitize_faq_invariants_witness :
    ((⟨(r"Jak ćwiczyć?").toList, (r"Regularnie.").toList⟩ : FaqEntry) ∈
        sanitize_faq exFaqItems ∧
      (⟨(r"Jak ćwiczyć?").toList, (r"Regularnie.").toList⟩ : FaqEntry).question ≠ [] ∧
      (⟨(r"Jak ćwiczyć?").toList, (r"Regularnie.").toList⟩ : FaqEntry).answer ≠ []) ∧
    ((sanitize_faq exFaqItems).map (fun e => lowerStr e.question)).Nodup ∧
    (sanitize_faq exFaqItems).length ≤ exFaqItems.length ∧
    sanitize_faq exFaqItems = sanitizeFaqFirstOccSpec exFaqItems [] :=
  ⟨⟨by decide, (c1_sanitize_faq_invariants exFaqItems).1 _ (by decide)⟩,
   (c1_sanitize_faq_invariants exFaqItems).2.1,
   (c1_sanitize_faq_invariants exFaqItems).2.2.1,
   (c1_sanitize_faq_invariants exFaqItems).2.2.2⟩

/-- C4 counterexample: the deep-search poll's sleep is not clamped to the
remaining budget.  With a budget of 3/2s and instantaneous never-terminal
responses, the second poll starts at t = 1 with only 1/2s of budget left,
yet the loop still sleeps the fixed 1.0s — after which it raises the
timeout.  (The transcript poll does clamp; see the amended theorem.) -/
theorem c4_deep_sleep_not_clamped_counterexample :
    (deep_poll_run c4DeepEvents (3/2) 5).1 = [⟨0, 0, 1⟩, ⟨1, 0, 1⟩] ∧
    (deep_poll_run c4DeepEvents (3/2) 5).2 = PollOutcome.timeoutError ∧
    ((3 : ℚ)/2 - 1 < 1) := by
  have hcls : deep_classify (some ['r', 'u', 'n', 'n', 'i', 'n', 'g']) = .keepPolling := by
    decide
  refine ⟨?_, ?_, by norm_num⟩ <;>
    norm_num [deep_poll_run, deepPollGo, c4DeepEvents, hcls]

/-- C4 (amended): in both polling loops no poll request starts at or after
the deadline; when no response is terminal, both loops raise the typed
timeout error (never a success) within a budget-proportional number of
iterations; the transcript poll clamps its inter-poll sleep to the
remaining budget, while the deep-search poll sleeps a fixed 1.0s (see the
counterexample). -/
theorem c4_bounded_polling (evS : Nat → SupaPollEvent) (evD : Nat → DeepPollEvent)
    (pollInterval pollTimeout budget : ℚ) (fuelS fuelD : Nat) :
    (∀ step ∈ (supa_poll_transcript_job evS pollInterval pollTimeout fuelS).1,
      step.start < max 1 pollTimeout ∧
        step.sleep ≤ max 1 pollTimeout - step.start) ∧
    (∀ step ∈ (deep_poll_run evD budget fuelD).1, step.start < budget) ∧
    ((∀ i, 0 ≤ (evS i).dur) →
      (∀ i, supadata_classify (evS i).status (evS i).hasContent = .keepPolling) →
      max 1 pollTimeout * 10 + 1 ≤ (fuelS : ℚ) →
      (supa_poll_transcript_job evS pollInterval pollTimeout fuelS).2 =
        PollOutcome.timeoutError) ∧
    ((∀ i, 0 ≤ (evD i).dur) →
      (∀ i, deep_classify (evD i).status = .keepPolling) →
      max 0 budget + 1 ≤ (fuelD : ℚ) →
      (deep_poll_run evD budget fuelD).2 = PollOutcome.timeoutError) := by
  refine ⟨?_, ?_, ?_, ?_⟩
  · intro step h
    exact supaPollGo_steps_bounded evS (max 1 pollTimeout)
      (max (1/10) pollInterval) fuelS 0 0 step h
  · intro step h
    exact deepPollGo_steps_bounded evD budget fuelD 0 0 step h
  · intro hdur hcont hfuel
    apply supaPollGo_timeout evS (max 1 pollTimeout) (max (1/10) pollInterval)
      (le_max_left _ _) hdur hcont fuelS 0 0
    rw [sub_zero]
    rw [max_eq_right (le_of_lt (lt_of_lt_of_le one_pos (le_max_left 1 pollTimeout)))]
    exact hfuel
  · intro hdur hcont hfuel
    apply deepPollGo_timeout evD budget hdur hcont fuelD 0 0
    rw [sub_zero]
    exact hfuel

/-- C4 witness: concrete never-terminal runs of both loops. -/
theorem c4_bounded_polling_witness :
    ((⟨0, 0, 1⟩ : PollStep).start < max 1 (1 : ℚ) ∧
      (⟨0, 0, 1⟩ : PollStep).sleep ≤
        max 1 (1 : ℚ) - (⟨0, 0, 1⟩ : PollStep).start) ∧
    (supa_poll_transcript_job c4SupaEvents 5 1 11).2 = PollOutcome.timeoutError ∧
    (deep_poll_run c4DeepEvents (3/2) 3).2 = PollOutcome.timeoutError := by
  have hcls : supadata_classify none false = PollClass.keepPolling := by decide
  refine ⟨?_, ?_, ?_⟩
  · refine (c4_bounded_polling c4SupaEvents c4DeepEvents 5 1 (3/2) 11 3).1
      ⟨0, 0, 1⟩ ?_
    norm_num [supa_poll_transcript_job, supaPollGo, c4SupaEvents, hcls]
  · exact (c4_bounded_polling c4SupaEvents c4DeepEvents 5 1 (3/2) 11 3).2.2.1
      (fun i => le_refl 0) (fun i => hcls) (by norm_num)
  · exact (c4_bounded_polling c4SupaEvents c4DeepEvents 5 1 (3/2) 11 3).2.2.2
      (fun i => le_refl 0)
      (fun i => by
        have hcls2 : deep_classify (some ['r', 'u', 'n', 'n', 'i', 'n', 'g']) =
            PollClass.keepPolling := by decide
        simpa [c4DeepEvents] using hcls2)
      (by norm_num)

/-! ### Lemmas about `pyStrip`, `splitLines` and `joinNl` (for C10) -/
theorem dropWhile_head_not {p : Char → Bool} {l : List Char} (d : Char)
    (h : l.dropWhile p ≠ []) : p ((l.dropWhile p).headD d) = false := by
  induction l with
  | nil => exact absurd rfl h
  | cons a t ih =>
    rw [List.dropWhile_cons]
    by_cases hp : p a
    · rw [if_pos hp]
      rw [List.dropWhile_cons, if_pos hp] at h
      exact ih h
    · rw [if_neg hp]
      simpa using hp

theorem dropWhile_all_of_eq_nil {p : Char → Bool} {l : List Char}
    (h : l.dropWhile p = []) : ∀ c ∈ l, p c = true := by
  induction l with
  | nil => intro c hc; simp at hc
  | cons a t ih =>
    intro c hc
    rw [List.dropWhile_cons] at h
    by_cases hp : p a
    · rw [if_pos hp] at h
      rcases List.mem_cons.mp hc with rfl | hc2
      · exact hp
      · exact ih h c hc2
    · rw [if_neg hp] at h
      simp at h

theorem dropWhile_append_all {p : Char → Bool} {a : List Char} (b : List Char)
    (h : ∀ c ∈ a, p c = true) :
    (a ++ b).dropWhile p = b.dropWhile p := by
  induction a with
  | nil => rfl
  | cons x t ih =>
    rw [List.cons_append, List.dropWhile_cons, if_pos (h x (by simp))]
    exact ih (fun c hc => h c (by simp [hc]))

theorem dropWhile_append_of_ne_nil {p : Char → Bool} {a : List Char}
    (b : List Char) (h : a.dropWhile p ≠ []) :
    (a ++ b).dropWhile p = a.dropWhile p ++ b := by
  induction a with
  | nil => exact absurd rfl h
  | cons x t ih =>
    rw [List.cons_append, List.dropWhile_cons, List.dropWhile_cons]
    rw [List.dropWhile_cons] at h
    by_cases hp : p x
    · rw [if_pos hp, if_pos hp]
      rw [if_pos hp] at h
      exact ih h
    · rw [if_neg hp, if_neg hp]
      rfl

theorem takeWhile_append_all {p : Char → Bool} {a : List Char} (b : List Char)
    (h : ∀ c ∈ a, p c = true) :
    (a ++ b).takeWhile p = a ++ b.takeWhile p := by
  induction a with
  | nil => rfl
  | cons x t ih =>
    rw [List.cons_append, List.takeWhile_cons, if_pos (h x (by simp))]
    rw [ih (fun c hc => h c (by simp [hc]))]
    rfl

theorem getLastD_reverse (l : List Char) (d : Char) :
    l.reverse.getLastD d = l.headD d := by
  have h := headD_reverse l.reverse d
  rw [List.reverse_reverse] at h
  exact h.symm

theorem mem_pyStrip {c : Char} {l : List Char} (h : c ∈ pyStrip l) : c ∈ l := by
  rw [pyStrip] at h
  rw [List.mem_reverse] at h
  have h2 := (List.dropWhile_suffix (l := (lstripWs l).reverse) isSpaceChar).sublist.mem h
  rw [List.mem_reverse] at h2
  exact (List.dropWhile_suffix (l := l) isSpaceChar).sublist.mem h2

theorem pyStrip_head_last {l : List Char} (h : pyStrip l ≠ []) :
    isSpaceChar ((pyStrip l).headD ' ') = false ∧
      isSpaceChar ((pyStrip l).getLastD ' ') = false := by
  rw [pyStrip] at h ⊢
  have hz : (lstripWs l).reverse.dropWhile isSpaceChar ≠ [] := by
    intro hx; rw [hx] at h; exact h rfl
  constructor
  · rw [headD_reverse]
    have hm : lstripWs l ≠ [] := by
      intro hx
      apply hz
      rw [hx]
      rfl
    obtain ⟨a, ha⟩ := List.dropWhile_suffix (l := (lstripWs l).reverse) isSpaceChar
    have hEq : ((lstripWs l).reverse.dropWhile isSpaceChar).getLastD ' '
        = (lstripWs l).headD ' ' :=
      calc ((lstripWs l).reverse.dropWhile isSpaceChar).getLastD ' '
          = (a ++ (lstripWs l).reverse.dropWhile isSpaceChar).getLastD ' ' :=
            (getLastD_append_right a ' ' hz).symm
        _ = (lstripWs l).reverse.getLastD ' ' := by rw [ha]
        _ = (lstripWs l).headD ' ' := getLastD_reverse _ _
    rw [hEq]
    exact dropWhile_head_not ' ' hm
  · rw [getLastD_reverse]
    exact dropWhile_head_not ' ' hz

theorem pyStrip_idem (l : List Char) : pyStrip (pyStrip l) = pyStrip l := by
  by_cases h : pyStrip l = []
  · rw [h]; rfl
  · obtain ⟨h1, h2⟩ := pyStrip_head_last h
    exact pyStrip_eq_self h h1 h2

theorem pyStrip_cons_ws {c : Char} (l : List Char) (h : isSpaceChar c = true) :
    pyStrip (c :: l) = pyStrip l := by
  rw [pyStrip, pyStrip, lstripWs, lstripWs, List.dropWhile_cons, if_pos h]

theorem pyStrip_append_ws {c : Char} (l : List Char) (h : isSpaceChar c = true) :
    pyStrip (l ++ [c]) = pyStrip l := by
  by_cases hl : lstripWs l = []
  · have hall := dropWhile_all_of_eq_nil hl
    have h1 : lstripWs (l ++ [c]) = [] := by
      rw [lstripWs, dropWhile_append_all [c] hall]
      simp [List.dropWhile_cons, h]
    rw [pyStrip, pyStrip, hl, h1]
  · have h1 : lstripWs (l ++ [c]) = lstripWs l ++ [c] :=
      dropWhile_append_of_ne_nil [c] hl
    rw [pyStrip, pyStrip, h1, List.reverse_append]
    simp only [List.reverse_singleton, List.singleton_append,
      List.dropWhile_cons, if_pos h]

theorem splitLines_ne_nil (l : List Char) : splitLines l ≠ [] := by
  cases l with
  | nil => simp [splitLines]
  | cons c rest =>
    rw [splitLines]
    by_cases h : c = '\n'
    · rw [if_pos h]; simp
    · rw [if_neg h]
      cases splitLines rest with
      | nil => simp
      | cons a b => simp

theorem splitLines_append_nl (x y : List Char) :
    splitLines (x ++ '\n' :: y) = splitLines x ++ splitLines y := by
  induction x with
  | nil =>
    simp [splitLines]
  | cons c rest ih =>
    rw [List.cons_append, splitLines, splitLines]
    by_cases h : c = '\n'
    · rw [if_pos h, if_pos h, ih]
      rfl
    · rw [if_neg h, if_neg h, ih]
      cases hs : splitLines rest with
      | nil => exact absurd hs (splitLines_ne_nil rest)
      | cons a b => rfl

theorem splitLines_no_nl {x : List Char} (h : ∀ c ∈ x, c ≠ '\n') :
    splitLines x = [x] := by
  induction x with
  | nil => rfl
  | cons c rest ih =>
    rw [splitLines, if_neg (h c (by simp)),
      ih (fun d hd => h d (by simp [hd]))]

theorem joinNl_cons (w : List Char) (z : List (List Char)) :
    joinNl (w :: z) = if z = [] then w else w ++ '\n' :: joinNl z := by
  cases z with
  | nil => rfl
  | cons a b => rfl

theorem joinNl_splitLines (x : List Char) : joinNl (splitLines x) = x := by
  induction x with
  | nil => rfl
  | cons c rest ih =>
    rw [splitLines]
    by_cases h : c = '\n'
    · rw [if_pos h, joinNl_cons, if_neg (splitLines_ne_nil rest), ih, h]
      rfl
    · rw [if_neg h]
      cases hs : splitLines rest with
      | nil => exact absurd hs (splitLines_ne_nil rest)
      | cons a b =>
        rw [hs] at ih
        rw [joinNl_cons] at ih ⊢
        cases hb : b with
        | nil =>
          rw [hb, if_pos rfl] at ih
          rw [if_pos rfl, ih]
        | cons p q =>
          rw [hb, if_neg (by simp)] at ih
          rw [if_neg (by simp), List.cons_append, ih]

theorem joinNl_append_nil_line {z : List (List Char)} (h : z ≠ []) :
    joinNl (z ++ [[]]) = joinNl z ++ ['\n'] := by
  induction z with
  | nil => exact absurd rfl h
  | cons w z' ih =>
    rw [List.cons_append, joinNl_cons, joinNl_cons w z']
    cases hz : z' with
    | nil =>
      rw [if_neg (by simp), if_pos rfl]
      rfl
    | cons a b =>
      rw [if_neg (by simp), if_neg (by simp), ← hz, ih (by simp [hz])]
      simp

theorem extractGo_skip_lines :
    ∀ (bls rest : List (List Char)) (t : List Char) (acc : List (List Char)),
      (∀ line ∈ bls, headerTitleOf line = none) →
      extractGo (bls ++ rest) t acc = extractGo rest t (acc ++ bls) := by
  intro bls
  induction bls with
  | nil => intro rest t acc h; simp
  | cons line bls' ih =>
    intro rest t acc h
    rw [List.cons_append, extractGo, h line (by simp)]
    rw [ih rest t (acc ++ [line]) (fun u hu => h u (by simp [hu]))]
    simp

theorem headerTitleOf_header {t : List Char} (hne : t ≠ [])
    (hstrip : pyStrip t = t) :
    headerTitleOf ('#' :: '#' :: ' ' :: t) = some t := by
  cases t with
  | nil => exact absurd rfl hne
  | cons c cs =>
    rw [headerTitleOf]
    rw [pyStrip_cons_ws (c :: cs) (by decide), hstrip]

theorem pyStrip_no_header {s : ArticleSection} (h : sectionOk s) :
    ∀ line ∈ splitLines (pyStrip s.body), headerTitleOf line = none :=
  h.2.2.2

/-- `compose_body_mdx` keeps every well-formed section. -/
theorem compose_parts_of_ok :
    ∀ (sections : List ArticleSection), (∀ s ∈ sections, sectionOk s) →
      sections.filterMap (fun s =>
        if pyStrip s.title = [] ∨ pyStrip s.body = [] then none
        else some (('#' :: '#' :: ' ' :: pyStrip s.title) ++
          '\n' :: '\n' :: pyStrip s.body)) =
      sections.map (fun s => ('#' :: '#' :: ' ' :: pyStrip s.title) ++
        '\n' :: '\n' :: pyStrip s.body) := by
  intro sections h
  induction sections with
  | nil => rfl
  | cons s rest ih =>
    have hs := h s (by simp)
    rw [List.filterMap_cons, List.map_cons,
      if_neg (by push_neg; exact ⟨hs.1, hs.2.2.1⟩)]
    rw [ih (fun u hu => h u (by simp [hu]))]

theorem joinNl2_cons (w : List Char) (z : List (List Char)) :
    joinNl2 (w :: z) = if z = [] then w else w ++ '\n' :: '\n' :: joinNl2 z := by
  cases z with
  | nil => rfl
  | cons a b => rfl

theorem splitLines_cons_nl (x : List Char) :
    splitLines ('\n' :: x) = [] :: splitLines x := by
  rw [splitLines, if_pos rfl]

theorem extractGo_cons_header (line : List Char) (rest : List (List Char))
    (t : List Char) (acc : List (List Char)) (t2 : List Char)
    (h : headerTitleOf line = some t2) :
    extractGo (line :: rest) t acc =
      (if t ≠ [] ∧ pyStrip (joinNl acc) ≠ [] then [⟨t, pyStrip (joinNl acc)⟩]
       else []) ++ extractGo rest t2 [] := by
  rw [extractGo, h]

theorem extractLines_cons_header (line : List Char) (rest : List (List Char))
    (t2 : List Char) (h : headerTitleOf line = some t2) :
    extractLines (line :: rest) = extractGo rest t2 [] := by
  rw [extractLines, h]

/-- The compose/extract round trip, by induction on the section list: the
composed body's line structure is one header line per section followed by
its body lines, and the extractor groups them back. -/
theorem extract_compose_aux :
    ∀ (sections : List ArticleSection), (∀ s ∈ sections, sectionOk s) →
      sections ≠ [] →
      ∃ ls, splitLines (compose_body_mdx sections) =
          ('#' :: '#' :: ' ' :: pyStrip ((sections.headD ⟨[], []⟩).title)) :: ls ∧
        extractGo ls (pyStrip ((sections.headD ⟨[], []⟩).title)) [] =
          sections.map stripSection := by
  intro sections
  induction sections with
  | nil => intro h hne; exact absurd rfl hne
  | cons s rest ih =>
    intro h hne
    have hs := h s (by simp)
    have hhd : ∀ c ∈ ('#' :: '#' :: ' ' :: pyStrip s.title), c ≠ '\n' := by
      intro c hc
      rcases List.mem_cons.mp hc with rfl | hc
      · decide
      rcases List.mem_cons.mp hc with rfl | hc
      · decide
      rcases List.mem_cons.mp hc with rfl | hc
      · decide
      · exact hs.2.1 c (mem_pyStrip hc)
    have hbody : pyStrip (pyStrip s.body) = pyStrip s.body := pyStrip_idem s.body
    simp only [List.headD_cons]
    rw [compose_body_mdx, compose_parts_of_ok (s :: rest) h, List.map_cons,
      joinNl2_cons]
    cases rest with
    | nil =>
      -- a single section: `## T\n\nB`
      rw [List.map_nil, if_pos rfl]
      have hsplit : splitLines (('#' :: '#' :: ' ' :: pyStrip s.title) ++
          '\n' :: '\n' :: pyStrip s.body) =
          ('#' :: '#' :: ' ' :: pyStrip s.title) ::
            [] :: splitLines (pyStrip s.body) := by
        rw [splitLines_append_nl, splitLines_no_nl hhd, splitLines_cons_nl]
        rfl
      refine ⟨[] :: splitLines (pyStrip s.body), hsplit, ?_⟩
      have hnoheader : ∀ line ∈ ([] : List Char) :: splitLines (pyStrip s.body),
          headerTitleOf line = none := by
        intro line hl
        rcases List.mem_cons.mp hl with rfl | hl
        · rfl
        · exact hs.2.2.2 line hl
      rw [show (([] : List Char) :: splitLines (pyStrip s.body)) =
        (([] : List Char) :: splitLines (pyStrip s.body)) ++ [] by simp]
      rw [extractGo_skip_lines _ [] _ [] hnoheader]
      rw [extractGo]
      have hcontent : pyStrip (joinNl
          (([] : List (List Char)) ++ [] :: splitLines (pyStrip s.body))) =
          pyStrip s.body := by
        simp only [List.nil_append]
        rw [joinNl_cons, if_neg (splitLines_ne_nil _), List.nil_append,
          joinNl_splitLines, pyStrip_cons_ws _ (by decide), hbody]
      rw [hcontent, if_pos ⟨hs.1, hs.2.2.1⟩]
      simp [stripSection]
    | cons s2 rest' =>
      have hvalid2 : ∀ u ∈ s2 :: rest', sectionOk u :=
        fun u hu => h u (by simp [hu])
      obtain ⟨ls2, hsplit2, hgo2⟩ := ih hvalid2 (by simp)
      rw [compose_body_mdx, compose_parts_of_ok (s2 :: rest') hvalid2] at hsplit2
      simp only [List.headD_cons] at hsplit2 hgo2
      rw [if_neg (by simp)]
      have hs2 := h s2 (by simp)
      have hsplit : splitLines ((('#' :: '#' :: ' ' :: pyStrip s.title) ++
          '\n' :: '\n' :: pyStrip s.body) ++
          '\n' :: '\n' :: joinNl2 ((s2 :: rest').map (fun u =>
            ('#' :: '#' :: ' ' :: pyStrip u.title) ++
              '\n' :: '\n' :: pyStrip u.body))) =
          ('#' :: '#' :: ' ' :: pyStrip s.title) ::
            (([] :: splitLines (pyStrip s.body) ++ [[]]) ++
              (('#' :: '#' :: ' ' :: pyStrip s2.title) :: ls2)) := by
        rw [splitLines_append_nl, splitLines_append_nl, splitLines_no_nl hhd,
          splitLines_cons_nl, splitLines_cons_nl, hsplit2]
        simp
      refine ⟨([] :: splitLines (pyStrip s.body) ++ [[]]) ++
        (('#' :: '#' :: ' ' :: pyStrip s2.title) :: ls2), hsplit, ?_⟩
      have hnoheader : ∀ line ∈ ([] : List Char) :: splitLines (pyStrip s.body) ++ [[]],
          headerTitleOf line = none := by
        intro line hl
        rcases List.mem_cons.mp hl with rfl | hl
        · rfl
        rcases List.mem_append.mp hl with hl | hl
        · exact hs.2.2.2 line hl
        · simp only [List.mem_singleton] at hl
          subst hl
          rfl
      rw [extractGo_skip_lines _ _ _ [] hnoheader]
      rw [extractGo_cons_header _ _ _ _ _
        (headerTitleOf_header hs2.1 (pyStrip_idem s2.title))]
      have hcontent : pyStrip (joinNl (([] : List (List Char)) ++
          ([] :: splitLines (pyStrip s.body) ++ [[]]))) = pyStrip s.body := by
        simp only [List.nil_append, List.cons_append]
        rw [joinNl_cons, if_neg (by simp), List.nil_append,
          joinNl_append_nil_line (splitLines_ne_nil _), joinNl_splitLines,
          pyStrip_cons_ws _ (by decide), pyStrip_append_ws _ (by decide), hbody]
      rw [hcontent, if_pos ⟨hs.1, hs.2.2.1⟩, hgo2, List.map_cons]
      rfl

/-- C10 counterexample: a section whose body starts with spaces before
`## x`.  No line of the RAW body begins with `## ` (the claim's
hypothesis), yet stripping the body inside `compose_body_mdx` creates a
`## x` header line, and the round trip returns `[⟨x, y⟩]` instead of the
stripped original section. -/
theorem c10_roundtrip_counterexample :
    pyStrip c10Section.title ≠ [] ∧
    (∀ c ∈ c10Section.title, c ≠ '\n') ∧
    pyStrip c10Section.body ≠ [] ∧
    (∀ line ∈ splitLines c10Section.body,
      startsWithChars ['#', '#', ' '] line = false) ∧
    extract_sections_from_body (compose_body_mdx [c10Section]) ≠
      [stripSection c10Section] := by
  decide

/-- C10 (amended): for sections whose stripped titles and bodies are
non-empty, whose titles contain no newline, and whose STRIPPED bodies
contain no line matching the header pattern `^## +(.+)$`, extraction
round-trips composition: the result is the original list with titles and
bodies whitespace-stripped. -/
theorem c10_compose_extract_roundtrip (sections : List ArticleSection)
    (h : ∀ s ∈ sections, sectionOk s) :
    extract_sections_from_body (compose_body_mdx sections) =
      sections.map stripSection := by
  cases hs : sections with
  | nil => rfl
  | cons s rest =>
    subst hs
    obtain ⟨ls, hsplit, hgo⟩ := extract_compose_aux (s :: rest) h (by simp)
    simp only [List.headD_cons] at hsplit hgo
    have hs1 := h s (by simp)
    have hcne : compose_body_mdx (s :: rest) ≠ [] := by
      intro hx
      rw [hx] at hsplit
      simp [splitLines] at hsplit
    rw [extract_sections_from_body, if_neg hcne, hsplit,
      extractLines_cons_header _ _ _
        (headerTitleOf_header hs1.1 (pyStrip_idem s.title))]
    exact hgo

/-- C10 witness: the amended round trip at a concrete two-section list. -/
theorem c10_compose_extract_roundtrip_witness :
    extract_sections_from_body (compose_body_mdx
      [⟨(r" Oddech ").toList, (r"Treść pierwsza.").toList⟩,
       ⟨(r"Relaks").toList, ('s' :: 'p' :: 'o' :: 'k' :: 'ó' :: 'j' :: '\n' :: (r"dalej").toList)⟩]) =
      List.map stripSection
        [⟨(r" Oddech ").toList, (r"Treść pierwsza.").toList⟩,
         ⟨(r"Relaks").toList, ('s' :: 'p' :: 'o' :: 'k' :: 'ó' :: 'j' :: '\n' :: (r"dalej").toList)⟩] :=
  c10_compose_extract_roundtrip
    [⟨(r" Oddech ").toList, (r"Treść pierwsza.").toList⟩,
     ⟨(r"Relaks").toList, ('s' :: 'p' :: 'o' :: 'k' :: 'ó' :: 'j' :: '\n' :: (r"dalej").toList)⟩]
    (by decide)

theorem hostCh_facts {c : Char} (h : hostCh c = true) :
    isNetlocChar c = true ∧ c ≠ ':' ∧ c ≠ '@' ∧ isSpaceChar c = false := by
  simp only [hostCh, Bool.and_eq_true, Bool.not_eq_true',
    decide_eq_false_iff_not, decide_eq_true_eq] at h
  tauto

theorem pathCh_facts {c : Char} (h : pathCh c = true) :
    c ≠ '?' ∧ c ≠ '#' ∧ c ≠ ';' ∧ isSpaceChar c = false := by
  simp only [pathCh, Bool.and_eq_true, Bool.not_eq_true',
    decide_eq_false_iff_not, decide_eq_true_eq] at h
  tauto

theorem queryCh_facts {c : Char} (h : queryCh c = true) :
    c ≠ '#' ∧ isSpaceChar c = false := by
  simp only [queryCh, Bool.and_eq_true, Bool.not_eq_true',
    decide_eq_false_iff_not, decide_eq_true_eq] at h
  tauto

theorem fragCh_facts {c : Char} (h : fragCh c = true) :
    isSpaceChar c = false := by
  simp only [fragCh, Bool.not_eq_true'] at h
  exact h

theorem not_space_facts {c : Char} (h : isSpaceChar c = false) :
    c ≠ ' ' ∧ c ≠ '\t' ∧ c ≠ '\n' ∧ c ≠ '\r' := by
  refine ⟨?_, ?_, ?_, ?_⟩ <;> rintro rfl <;> revert h <;> decide

theorem headD_mem {l : List Char} (d : Char) (h : l ≠ []) : l.headD d ∈ l := by
  cases l with
  | nil => exact absurd rfl h
  | cons a t => simp

theorem takeWhile_all {p : Char → Bool} {l : List Char}
    (h : ∀ c ∈ l, p c = true) : l.takeWhile p = l := by
  have h2 := takeWhile_append_all (a := l) [] h
  simpa using h2

theorem takeWhile_stop {p : Char → Bool} {ys : List Char} (xs : List Char)
    (hxs : ∀ c ∈ xs, p c = true) (hys : ys.takeWhile p = []) :
    (xs ++ ys).takeWhile p = xs ∧ (xs ++ ys).dropWhile p = ys := by
  constructor
  · rw [takeWhile_append_all ys hxs, hys, List.append_nil]
  · rw [dropWhile_append_all ys hxs]
    cases ys with
    | nil => rfl
    | cons a t =>
      rw [List.takeWhile_cons] at hys
      by_cases hp : p a
      · rw [if_pos hp] at hys
        simp at hys
      · rw [List.dropWhile_cons, if_neg hp]

theorem splitFirst_append_sep {ch : Char} {xs : List Char} (ys : List Char)
    (hxs : ∀ c ∈ xs, c ≠ ch) :
    splitFirst ch (xs ++ ch :: ys) = (xs, ys) := by
  have hall : ∀ c ∈ xs, (fun c => decide (c ≠ ch)) c = true := by
    intro c hc
    simp [hxs c hc]
  have hstop : (ch :: ys).takeWhile (fun c => decide (c ≠ ch)) = [] := by
    rw [List.takeWhile_cons, if_neg (by simp)]
  obtain ⟨ht, -⟩ := takeWhile_stop xs hall hstop
  have hdrop : (xs ++ ch :: ys).drop (xs.length + 1) = ys := by
    have he : xs ++ ch :: ys = (xs ++ [ch]) ++ ys := by simp
    have hlen : xs.length + 1 = (xs ++ [ch]).length := by simp
    rw [he, hlen, List.drop_left]
  simp only [splitFirst, ht]
  rw [if_neg (by simp), hdrop]

theorem splitFirst_no_sep {ch : Char} {xs : List Char}
    (hxs : ∀ c ∈ xs, c ≠ ch) : splitFirst ch xs = (xs, []) := by
  have ht : xs.takeWhile (fun c => decide (c ≠ ch)) = xs :=
    takeWhile_all (fun c hc => by simp [hxs c hc])
  simp only [splitFirst, ht]
  simp

theorem splitParams_no_semi {l : List Char} (h : ∀ c ∈ l, c ≠ ';') :
    splitParams l = (l, []) := by
  have hnone : ∀ (m : List Char), (∀ c ∈ m, c ≠ ';') →
      m.findIdx? (fun c => decide (c = ';')) = none := fun m hm =>
    List.findIdx?_eq_none_iff.mpr (fun x hx => by simp [hm x hx])
  have hidx : (if '/' ∈ l then
      match rfindIdx (fun c => decide (c = '/')) l with
      | some s => findIdxFrom (fun c => decide (c = ';')) l s
      | none => none
    else l.findIdx? (fun c => decide (c = ';'))) = none := by
    by_cases hsl : '/' ∈ l
    · rw [if_pos hsl]
      cases hr : rfindIdx (fun c => decide (c = '/')) l with
      | none => rfl
      | some s =>
        show findIdxFrom (fun c => decide (c = ';')) l s = none
        rw [findIdxFrom, hnone (l.drop s) (fun c hc => h c (List.mem_of_mem_drop hc))]
        rfl
    · rw [if_neg hsl, hnone l h]
  simp only [splitParams, hidx]

theorem hostnameOf_simple {host : List Char} (hat : ∀ c ∈ host, c ≠ '@')
    (hcol : ∀ c ∈ host, c ≠ ':') : hostnameOf host = lowerStr host := by
  have h1 : rfindIdx (fun c => decide (c = '@')) host = none := by
    rw [rfindIdx, List.findIdx?_eq_none_iff.mpr
      (fun x hx => by simp [hat x (List.mem_reverse.mp hx)])]
    rfl
  simp only [hostnameOf, h1]
  rw [takeWhile_all (fun c hc => by simp [hcol c hc])]

theorem splitScheme_append {scheme : List Char} (r : List Char)
    (hne : scheme ≠ []) (halpha : (scheme.headD 'a').isAlpha = true)
    (hsch : scheme.all isSchemeChar = true) (hcol : ∀ c ∈ scheme, c ≠ ':')
    (hlow : lowerStr scheme = scheme) :
    splitScheme (scheme ++ ':' :: r) = (scheme, r) := by
  have hall : ∀ c ∈ scheme, (fun c => decide (c ≠ ':')) c = true := by
    intro c hc
    simp [hcol c hc]
  have hstop : (':' :: r).takeWhile (fun c => decide (c ≠ ':')) = [] := by
    rw [List.takeWhile_cons, if_neg (by simp)]
  obtain ⟨ht, -⟩ := takeWhile_stop scheme hall hstop
  have hdrop : (scheme ++ ':' :: r).drop (scheme.length + 1) = r := by
    have he : scheme ++ ':' :: r = (scheme ++ [':']) ++ r := by simp
    have hlen : scheme.length + 1 = (scheme ++ [':']).length := by simp
    rw [he, hlen, List.drop_left]
  simp only [splitScheme, ht]
  rw [if_pos ⟨by simp, hne, halpha, hsch⟩, hlow, hdrop]

theorem filter_clean {l : List Char} (h : ∀ c ∈ l, isSpaceChar c = false) :
    l.filter (fun c => !(c = '\t' || c = '\r' || c = '\n')) = l :=
  List.filter_eq_self.mpr (fun c hc => by
    obtain ⟨-, h1, h2, h3⟩ := not_space_facts (h c hc)
    simp [h1, h2, h3])

theorem rstripSlashes_prefixOf (l : List Char) : rstripSlashes l <+: l := by
  obtain ⟨t, ht⟩ :=
    List.dropWhile_suffix (p := fun c => decide (c = '/')) (l := l.reverse)
  refine ⟨t.reverse, ?_⟩
  have h2 := congrArg List.reverse ht
  simp only [List.reverse_append, List.reverse_reverse] at h2
  rw [rstripSlashes]
  exact h2

theorem headD_prefixOf {l m : List Char} (h : m <+: l) (hne : m ≠ [])
    (d : Char) : m.headD d = l.headD d := by
  obtain ⟨t, ht⟩ := h
  subst ht
  cases m with
  | nil => exact absurd rfl hne
  | cons a b => rfl

theorem normPathOf_ne_nil (path : List Char) : normPathOf path ≠ [] := by
  rw [normPathOf]
  split_ifs with h1 h2 h3
  · simp
  · simp
  · simp
  · exact h3

theorem normPathOf_headD (path : List Char)
    (hp : path = [] ∨ path.headD ' ' = '/') :
    (normPathOf path).headD ' ' = '/' := by
  rw [normPathOf]
  split_ifs with h1 h2 h3
  · rfl
  · rfl
  · rfl
  · rcases hp with rfl | hp
    · exact absurd rfl h1
    · rw [headD_prefixOf (rstripSlashes_prefixOf path) h3 ' ']
      exact hp

theorem normPathOf_append_slash (path : List Char) :
    normPathOf (path ++ ['/']) = normPathOf path := by
  have hr : rstripSlashes (path ++ ['/']) = rstripSlashes path := by
    rw [rstripSlashes, rstripSlashes, List.reverse_append, List.reverse_singleton,
      List.singleton_append, List.dropWhile_cons, if_pos (by simp)]
  by_cases h0 : path = []
  · subst h0
    decide
  · by_cases h1 : path = ['/']
    · subst h1
      decide
    · have h2 : path ++ ['/'] ≠ [] := by simp
      have h3 : path ++ ['/'] ≠ ['/'] := by
        intro hx
        cases path with
        | nil => exact h0 rfl
        | cons a t => simp at hx
      rw [normPathOf, normPathOf, if_neg h2, if_neg h3, if_neg h0, if_neg h1, hr]

theorem pyUrlunparse_simple (scheme netloc fpath query : List Char)
    (hsch : scheme ≠ []) (hnet : netloc ≠ [])
    (hphead : fpath.headD ' ' = '/') :
    pyUrlunparse ⟨scheme, netloc, fpath, [], query, []⟩ =
      scheme ++ ':' :: ('/' :: '/' :: netloc ++ fpath) ++
        (if query = [] then [] else '?' :: query) := by
  simp only [pyUrlunparse]
  rw [if_neg (fun hx : ([] : List Char) ≠ [] => hx rfl),
    if_neg (fun hx : ([] : List Char) ≠ [] => hx rfl)]
  rw [if_pos (Or.inl hnet)]
  rw [if_neg (fun hx : fpath ≠ [] ∧ fpath.headD ' ' ≠ '/' => hx.2 hphead)]
  rw [if_pos hsch]
  by_cases hq0 : query = []
  · rw [if_neg (fun hx : query ≠ [] => hx hq0), if_pos hq0, List.append_nil]
  · rw [if_pos hq0, if_neg hq0]

/-- `urlparse` on `scheme://host` followed by a netloc-terminating rest:
the scheme and netloc split off, and the fragment/query/params splits
apply to the rest. -/
theorem pyUrlparse_core (scheme host rest : List Char)
    (hs : scheme = ['h', 't', 't', 'p'] ∨ scheme = ['h', 't', 't', 'p', 's'])
    (hhost : ∀ c ∈ host, hostCh c = true)
    (hrs : ∀ c ∈ rest, isSpaceChar c = false)
    (hstop : rest.takeWhile isNetlocChar = []) :
    pyUrlparse (scheme ++ ':' :: '/' :: '/' :: (host ++ rest)) =
      ⟨scheme, host,
        (splitParams (splitFirst '?' (splitFirst '#' rest).1).1).1,
        (splitParams (splitFirst '?' (splitFirst '#' rest).1).1).2,
        (splitFirst '?' (splitFirst '#' rest).1).2,
        (splitFirst '#' rest).2⟩ := by
  have hnospace : ∀ c ∈ scheme ++ ':' :: '/' :: '/' :: (host ++ rest),
      isSpaceChar c = false := by
    intro c hc
    rcases List.mem_append.mp hc with hc | hc
    · rcases hs with rfl | rfl <;> fin_cases hc <;> decide
    rcases List.mem_cons.mp hc with rfl | hc
    · decide
    rcases List.mem_cons.mp hc with rfl | hc
    · decide
    rcases List.mem_cons.mp hc with rfl | hc
    · decide
    rcases List.mem_append.mp hc with hc | hc
    · exact (hostCh_facts (hhost c hc)).2.2.2
    · exact hrs c hc
  have hclean := filter_clean hnospace
  have hsp : splitScheme (scheme ++ ':' :: '/' :: '/' :: (host ++ rest)) =
      (scheme, '/' :: '/' :: (host ++ rest)) := by
    refine splitScheme_append _ ?_ ?_ ?_ ?_ ?_ <;> rcases hs with rfl | rfl <;> decide
  obtain ⟨hnt, hnd⟩ := takeWhile_stop host
    (fun c hc => (hostCh_facts (hhost c hc)).1) hstop
  have htk : ('/' :: '/' :: (host ++ rest)).take 2 = ['/', '/'] := rfl
  have hdr : ('/' :: '/' :: (host ++ rest)).drop 2 = host ++ rest := rfl
  simp only [pyUrlparse, hclean, hsp, htk, hdr, hnt, hnd, eq_self_iff_true, if_true]

/-- `urlparse (mkUrl scheme host path query frag)` recovers the
components (with empty params). -/
theorem pyUrlparse_mkUrl (scheme host path query frag : List Char)
    (hs : scheme = ['h', 't', 't', 'p'] ∨ scheme = ['h', 't', 't', 'p', 's'])
    (hhost : host.all hostCh = true)
    (hpath : path = [] ∨ (path.headD ' ' = '/' ∧ path.all pathCh = true))
    (hq : query.all queryCh = true) (hf : frag.all fragCh = true) :
    pyUrlparse (mkUrl scheme host path query frag) =
      ⟨scheme, host, path, [], query, frag⟩ := by
  have hhostm := List.all_eq_true.mp hhost
  have hpathm : ∀ c ∈ path, pathCh c = true := by
    rcases hpath with rfl | ⟨-, hall⟩
    · intro c hc
      simp at hc
    · exact List.all_eq_true.mp hall
  have hqm := List.all_eq_true.mp hq
  have hfm := List.all_eq_true.mp hf
  have hrs : ∀ c ∈ path ++ ((if query = [] then [] else '?' :: query) ++
      (if frag = [] then [] else '#' :: frag)), isSpaceChar c = false := by
    intro c hc
    rcases List.mem_append.mp hc with hc | hc
    · exact (pathCh_facts (hpathm c hc)).2.2.2
    rcases List.mem_append.mp hc with hc | hc
    · by_cases hq0 : query = []
      · rw [if_pos hq0] at hc
        simp at hc
      · rw [if_neg hq0] at hc
        rcases List.mem_cons.mp hc with rfl | hc
        · decide
        · exact (queryCh_facts (hqm c hc)).2
    · by_cases hf0 : frag = []
      · rw [if_pos hf0] at hc
        simp at hc
      · rw [if_neg hf0] at hc
        rcases List.mem_cons.mp hc with rfl | hc
        · decide
        · exact fragCh_facts (hfm c hc)
  have hstop : (path ++ ((if query = [] then [] else '?' :: query) ++
      (if frag = [] then [] else '#' :: frag))).takeWhile isNetlocChar = [] := by
    rcases hpath with rfl | ⟨hph, -⟩
    · simp only [List.nil_append]
      by_cases hq0 : query = []
      · rw [if_pos hq0]
        simp only [List.nil_append]
        by_cases hf0 : frag = []
        · rw [if_pos hf0]
          rfl
        · rw [if_neg hf0, List.takeWhile_cons, if_neg (by decide)]
      · rw [if_neg hq0, List.cons_append, List.takeWhile_cons, if_neg (by decide)]
    · cases path with
      | nil => exact absurd hph (by decide)
      | cons a t =>
        have ha : a = '/' := hph
        subst ha
        rw [List.cons_append, List.takeWhile_cons, if_neg (by decide)]
  have hqsep : ∀ c ∈ path ++ (if query = [] then [] else '?' :: query), c ≠ '#' := by
    intro c hc
    rcases List.mem_append.mp hc with hc | hc
    · exact (pathCh_facts (hpathm c hc)).2.1
    · by_cases hq0 : query = []
      · rw [if_pos hq0] at hc
        simp at hc
      · rw [if_neg hq0] at hc
        rcases List.mem_cons.mp hc with rfl | hc
        · decide
        · exact (queryCh_facts (hqm c hc)).1
  have hff : splitFirst '#' (path ++ ((if query = [] then [] else '?' :: query) ++
      (if frag = [] then [] else '#' :: frag))) =
      (path ++ (if query = [] then [] else '?' :: query), frag) := by
    by_cases hf0 : frag = []
    · rw [if_pos hf0, List.append_nil, hf0]
      exact splitFirst_no_sep hqsep
    · rw [if_neg hf0, ← List.append_assoc]
      exact splitFirst_append_sep frag hqsep
  have hqq : splitFirst '?' (path ++ (if query = [] then [] else '?' :: query)) =
      (path, query) := by
    have hpq : ∀ c ∈ path, c ≠ '?' := fun c hc => (pathCh_facts (hpathm c hc)).1
    by_cases hq0 : query = []
    · rw [if_pos hq0, List.append_nil, hq0]
      exact splitFirst_no_sep hpq
    · rw [if_neg hq0]
      exact splitFirst_append_sep query hpq
  have hpp : splitParams path = (path, []) :=
    splitParams_no_semi (fun c hc => (pathCh_facts (hpathm c hc)).2.2.1)
  rw [mkUrl, List.append_assoc, List.append_assoc,
    pyUrlparse_core scheme host _ hs hhostm hrs hstop]
  simp only [hff, hqq, hpp]

theorem normPathOf_chain (path : List Char) :
    (if (if (if path = [] then ['/'] else path) = ['/']
         then (if path = [] then ['/'] else path)
         else rstripSlashes (if path = [] then ['/'] else path)) = []
     then ['/']
     else (if (if path = [] then ['/'] else path) = ['/']
           then (if path = [] then ['/'] else path)
           else rstripSlashes (if path = [] then ['/'] else path))) =
      normPathOf path := by
  by_cases h0 : path = []
  · subst h0
    decide
  · simp only [if_neg h0]
    by_cases h1 : path = ['/']
    · subst h1
      decide
    · simp only [if_neg h1]
      by_cases h2 : rstripSlashes path = []
      · rw [if_pos h2, normPathOf, if_neg h0, if_neg h1, if_pos h2]
      · rw [if_neg h2, normPathOf, if_neg h0, if_neg h1, if_neg h2]

/-- `normalize_url` on an assembled http(s) URL: the scheme survives
verbatim, the host is lowered, the path is slash-normalised, the query is
kept and the fragment is dropped. -/
theorem normalize_url_mkUrl (scheme host path query frag : List Char)
    (hs : scheme = ['h', 't', 't', 'p'] ∨ scheme = ['h', 't', 't', 'p', 's'])
    (hhne : host ≠ []) (hhost : host.all hostCh = true)
    (hpath : path = [] ∨ (path.headD ' ' = '/' ∧ path.all pathCh = true))
    (hq : query.all queryCh = true) (hf : frag.all fragCh = true) :
    normalize_url (mkUrl scheme host path query frag) =
      scheme ++ ':' :: ('/' :: '/' :: lowerStr host ++ normPathOf path) ++
        (if query = [] then [] else '?' :: query) := by
  have hhostm := List.all_eq_true.mp hhost
  have hpathm : ∀ c ∈ path, pathCh c = true := by
    rcases hpath with rfl | ⟨-, hall⟩
    · intro c hc
      simp at hc
    · exact List.all_eq_true.mp hall
  have hqm := List.all_eq_true.mp hq
  have hfm := List.all_eq_true.mp hf
  have hnospace : ∀ c ∈ mkUrl scheme host path query frag,
      isSpaceChar c = false := by
    intro c hc
    rw [mkUrl] at hc
    rcases List.mem_append.mp hc with hc | hc
    · rcases hs with rfl | rfl <;> fin_cases hc <;> decide
    rcases List.mem_cons.mp hc with rfl | hc
    · decide
    rcases List.mem_cons.mp hc with rfl | hc
    · decide
    rcases List.mem_cons.mp hc with rfl | hc
    · decide
    rcases List.mem_append.mp hc with hc | hc
    rotate_left
    · by_cases hf0 : frag = []
      · rw [if_pos hf0] at hc
        simp at hc
      · rw [if_neg hf0] at hc
        rcases List.mem_cons.mp hc with rfl | hc
        · decide
        · exact fragCh_facts (hfm c hc)
    rcases List.mem_append.mp hc with hc | hc
    rotate_left
    · by_cases hq0 : query = []
      · rw [if_pos hq0] at hc
        simp at hc
      · rw [if_neg hq0] at hc
        rcases List.mem_cons.mp hc with rfl | hc
        · decide
        · exact (queryCh_facts (hqm c hc)).2
    rcases List.mem_append.mp hc with hc | hc
    · exact (hostCh_facts (hhostm c hc)).2.2.2
    · exact (pathCh_facts (hpathm c hc)).2.2.2
  have hne : mkUrl scheme host path query frag ≠ [] := by
    rcases hs with rfl | rfl <;> simp [mkUrl]
  have hstrip : pyStrip (mkUrl scheme host path query frag) =
      mkUrl scheme host path query frag :=
    pyStrip_eq_self hne (hnospace _ (headD_mem ' ' hne))
      (hnospace _ (getLastD_mem ' ' hne))
  have hparse := pyUrlparse_mkUrl scheme host path query frag hs hhost hpath hq hf
  simp only [normalize_url, if_neg hne, hstrip, hparse]
  have hcond : ¬(scheme = [] ∨ host = []) := by
    push_neg
    exact ⟨by rcases hs with rfl | rfl <;> simp, hhne⟩
  rw [if_neg hcond, normPathOf_chain]
  rw [hostnameOf_simple (fun c hc => (hostCh_facts (hhostm c hc)).2.2.1)
    (fun c hc => (hostCh_facts (hhostm c hc)).2.1)]
  rw [pyUrlunparse_simple scheme (lowerStr host) (normPathOf path) query
    (by rcases hs with rfl | rfl <;> simp)
    (by simp [lowerStr, hhne])
    (normPathOf_headD path (Or.imp id And.left hpath))]

/-- C9 (amended): for well-formed http(s) URLs, normalize_url lowercases
the host, removes the fragment and strips trailing slashes from the path
(root maps to `/`), so URLs differing only in host case, fragment or
trailing slashes compare equal; the scheme, however, is preserved
verbatim, so default-scheme redundancy is NOT stripped. -/
theorem c9_normalize_url_equivalences
    (scheme host host2 path query frag : List Char)
    (hs : scheme = ['h', 't', 't', 'p'] ∨ scheme = ['h', 't', 't', 'p', 's'])
    (hhne : host ≠ []) (hhost : host.all hostCh = true)
    (hhne2 : host2 ≠ []) (hhost2 : host2.all hostCh = true)
    (hpath : path = [] ∨ (path.headD ' ' = '/' ∧ path.all pathCh = true))
    (hq : query.all queryCh = true) (hf : frag.all fragCh = true)
    (hcase : lowerStr host = lowerStr host2) :
    normalize_url (mkUrl scheme host path query frag) =
      scheme ++ ':' :: ('/' :: '/' :: lowerStr host ++ normPathOf path) ++
        (if query = [] then [] else '?' :: query) ∧
    normalize_url (mkUrl scheme host path query frag) =
      normalize_url (mkUrl scheme host path query []) ∧
    normalize_url (mkUrl scheme host path query frag) =
      normalize_url (mkUrl scheme host2 path query frag) ∧
    normalize_url (mkUrl scheme host (path ++ ['/']) query frag) =
      normalize_url (mkUrl scheme host path query frag) := by
  have hm := normalize_url_mkUrl scheme host path query frag hs hhne hhost hpath hq hf
  have hpath' : path ++ ['/'] = [] ∨ ((path ++ ['/']).headD ' ' = '/' ∧
      (path ++ ['/']).all pathCh = true) := by
    right
    constructor
    · rcases hpath with rfl | ⟨hph, -⟩
      · rfl
      · cases path with
        | nil => rfl
        | cons a t => exact hph
    · have hp1 : path.all pathCh = true := by
        rcases hpath with rfl | ⟨-, hall⟩
        · rfl
        · exact hall
      rw [List.all_append, hp1]
      decide
  refine ⟨hm, ?_, ?_, ?_⟩
  · rw [hm, normalize_url_mkUrl scheme host path query [] hs hhne hhost hpath hq rfl]
  · rw [hm,
      normalize_url_mkUrl scheme host2 path query frag hs hhne2 hhost2 hpath hq hf,
      hcase]
  · rw [hm,
      normalize_url_mkUrl scheme host (path ++ ['/']) query frag hs hhne hhost
        hpath' hq hf,
      normPathOf_append_slash]

/-- C9 witness: the amended equivalences at a concrete URL. -/
theorem c9_normalize_url_equivalences_witness :
    normalize_url (mkUrl ['h', 't', 't', 'p'] ['E', 'x', '.', 'C', 'O', 'M']
        ['/', 'A'] ['q'] ['f']) =
      ['h', 't', 't', 'p'] ++ ':' :: ('/' :: '/' ::
        lowerStr ['E', 'x', '.', 'C', 'O', 'M'] ++ normPathOf ['/', 'A']) ++
        (if (['q'] : List Char) = [] then [] else '?' :: ['q']) ∧
    normalize_url (mkUrl ['h', 't', 't', 'p'] ['E', 'x', '.', 'C', 'O', 'M']
        ['/', 'A'] ['q'] ['f']) =
      normalize_url (mkUrl ['h', 't', 't', 'p'] ['E', 'x', '.', 'C', 'O', 'M']
        ['/', 'A'] ['q'] []) ∧
    normalize_url (mkUrl ['h', 't', 't', 'p'] ['E', 'x', '.', 'C', 'O', 'M']
        ['/', 'A'] ['q'] ['f']) =
      normalize_url (mkUrl ['h', 't', 't', 'p'] ['e', 'x', '.', 'c', 'o', 'm']
        ['/', 'A'] ['q'] ['f']) ∧
    normalize_url (mkUrl ['h', 't', 't', 'p'] ['E', 'x', '.', 'C', 'O', 'M']
        (['/', 'A'] ++ ['/']) ['q'] ['f']) =
      normalize_url (mkUrl ['h', 't', 't', 'p'] ['E', 'x', '.', 'C', 'O', 'M']
        ['/', 'A'] ['q'] ['f']) :=
  c9_normalize_url_equivalences ['h', 't', 't', 'p'] ['E', 'x', '.', 'C', 'O', 'M']
    ['e', 'x', '.', 'c', 'o', 'm'] ['/', 'A'] ['q'] ['f']
    (by decide) (by decide) (by decide) (by decide) (by decide) (by decide)
    (by decide) (by decide) (by decide)

/-- C9 counterexample: default-scheme redundancy is NOT stripped — a URL
without a scheme is returned verbatim (host case and fragment intact) and
never compares equal to its `http://` form. -/
theorem c9_scheme_counterexample :
    normalize_url ((r"http://example.com/a").toList) ≠
      normalize_url ((r"example.com/a").toList) ∧
    normalize_url ((r"Example.COM/path#frag").toList) =
      (r"Example.COM/path#frag").toList := by
  decide

end BlogBackend
